import Mathlib

/-!
# Verification of the Open-Loop CL scheduler (OpenLoopCLPass)

Shallow embedding of `pymtl3/passes/autotick/OpenLoopCLPass.py` (the primary
implementation; `pymtl3/passes/OpenLoopCLPass.py` is an older variant of the
same pass and is referenced where it decides a claim).

Vertices (update blocks, callee ports, ready guards), signals and raw methods
are modelled as natural-number identifiers.  Python `set` objects are modelled
as insertion-ordered duplicate-free lists, Python `dict` objects as
association lists with overwrite-on-assign, and Python exceptions as `Option`
(`none` = the pass raises and the input is not accepted).

The file is in two parts: first all definitions (the embedding), then the
lemmas and the claim theorems.
-/

namespace OpenLoopCL

/-! ## Small list helpers (Python `set.add` and `dict.__setitem__`) -/

/-- Python `set.add`: append if not already present (insertion-ordered set). -/
def insertNew [DecidableEq α] (xs : List α) (x : α) : List α :=
  if x ∈ xs then xs else xs ++ [x]

/-- Python `dict.__setitem__`: overwrite the binding of `k` if present,
otherwise append it. -/
def setA (k v : Nat) : List (Nat × Nat) → List (Nat × Nat)
  | [] => [(k, v)]
  | (k', v') :: rest => if k' = k then (k, v) :: rest else (k', v') :: setA k v rest

/-- Python `dict.__getitem__` (`none` models a `KeyError`). -/
def alookup (k : Nat) : List (Nat × Nat) → Option Nat
  | [] => none
  | (k', v') :: rest => if k' = k then some v' else alookup k rest

/-! ## Fixed-point super-block template (`gen_wrapped_SCCblk`)

The pass synthesizes, for each non-trivial SCC, a block

```
def wrapped_SCC_{0}():
  num_iters = 0
  while True:
    num_iters += 1
    {snapshot trigger variables}
    for blk in scc: blk()
    if {all trigger variables equal their snapshots}: break
    if num_iters > 100:
      raise UpblkCyclicError("Combinational loop detected at runtime in {m1, ...}!")
```

Signals are indexed by `Nat` and a machine state is a valuation of all
signals; an update block is a state transformer. -/

/-- A signal valuation: the values of all signals of the design. -/
def St : Type := Nat → Int

/-- `for blk in scc: blk()` — run the intra-SCC schedule once, in order. -/
def sccExec (blocks : List (St → St)) (s : St) : St :=
  blocks.foldl (fun s b => b s) s

/-- The snapshot of the trigger variables (`t0 = v0; t1 = v1; ...`). -/
def snapshot (vars : List Nat) (s : St) : List Int :=
  vars.map s

/-- The `UpblkCyclicError` message text produced by the template
(`"Combinational loop detected at runtime in {{{3}}}!"` with `{3}` the
comma-joined member names). -/
def combLoopMsg (names : List String) : String :=
  "Combinational loop detected at runtime in \x7b" ++ String.intercalate ", " names ++ "\x7d!"

/-- The `while True` loop of the generated super-block.  Each pass snapshots
the trigger variables, executes the intra-SCC order once, breaks when all
trigger variables equal their snapshots (returning the final state and the
value of `num_iters`), and raises `UpblkCyclicError` (returning the message
and the value of `num_iters`) when `num_iters > 100`. -/
def sccLoop (vars : List Nat) (blocks : List (St → St)) (names : List String)
    (s : St) (numIters : Nat) : Except (String × Nat) (St × Nat) :=
  let n := numIters + 1
  let s2 := sccExec blocks s
  if snapshot vars s2 = snapshot vars s then .ok (s2, n)
  else if 100 < n then .error (combLoopMsg names, n)
  else sccLoop vars blocks names s2 n
termination_by 101 - numIters
decreasing_by omega

/-- Running the generated super-block from state `s` (`num_iters = 0`). -/
def wrappedSCC (vars : List Nat) (blocks : List (St → St)) (names : List String)
    (s : St) : Except (String × Nat) (St × Nat) :=
  sccLoop vars blocks names s 0

/-- A block that toggles trigger signal `0` on every sweep. -/
def toggleBlk : St → St := fun s v => if v = 0 then 1 - s 0 else s v

/-- The all-zero signal valuation. -/
def zeroSt : St := fun _ => 0

/-- A block that drives trigger signal `0` to the constant `5`. -/
def setBlk : St → St := fun s v => if v = 0 then 5 else s v

/-! ## Snapshot-code generation (`copy_srcs` / `check_srcs`)

For each trigger variable the pass emits a snapshot statement chosen by the
variable's type, and an equality check `{var} == t{j}`:

```
if issubclass( var._dsl.Type, Bits ):        t{j} = {var}.value
elif is_bitstruct_class( var._dsl.Type ):    t{j} = {var}.clone()
else:                                        t{j} = deepcopy({var})
```

The module `pymtl3/passes/autotick/OpenLoopCLPass.py` binds only the names
listed in `openLoopModuleNames` below (its `import` statements and its own
definitions); evaluating the dispatch resolves the global names `Bits` and
`is_bitstruct_class`. -/

/-- The classification of a trigger variable's `._dsl.Type`. -/
inductive VarKind where
  | bits       -- a fixed-width integer signal (`issubclass(Type, Bits)`)
  | bitstruct  -- a structured record (`is_bitstruct_class(Type)`)
  | oth        -- anything else
deriving DecidableEq

/-- The global names bound in module `pymtl3/passes/autotick/OpenLoopCLPass.py`:
its imports (`os`, `random`, `deque`, `py`, `Bits1`, `CalleeIfcCL`,
`CalleePort`, `UpblkCyclicError`, `BasePass`, `PassMetadata`,
`PassOrderError`, `SimpleSchedulePass`, `dump_dag`, `SimpleTickPass`,
`CLLineTracePass`, `CollectSignalPass`, `PrintWavePass`,
`VcdGenerationPass`) and its own class `OpenLoopCLPass`. -/
def openLoopModuleNames : List String :=
  ["os", "random", "deque", "py", "Bits1", "CalleeIfcCL", "CalleePort",
   "UpblkCyclicError", "BasePass", "PassMetadata", "PassOrderError",
   "SimpleSchedulePass", "dump_dag", "SimpleTickPass", "CLLineTracePass",
   "CollectSignalPass", "PrintWavePass", "VcdGenerationPass", "OpenLoopCLPass"]

/-- The snapshot statement the dispatch would emit for variable number `j`
named `v`, by kind (the text of `copy_srcs` in the source). -/
def copySrc (k : VarKind) (j : Nat) (v : String) : String :=
  match k with
  | .bits => "t" ++ toString j ++ " = " ++ v ++ ".value"
  | .bitstruct => "t" ++ toString j ++ " = " ++ v ++ ".clone()"
  | .oth => "t" ++ toString j ++ " = deepcopy(" ++ v ++ ")"

/-- The equality check emitted for variable number `j` named `v`
(`check_srcs` in the source). -/
def checkSrc (j : Nat) (v : String) : String :=
  v ++ " == t" ++ toString j

/-- The `{2}` hole of the template: `" and ".join(check_srcs)`. -/
def genCheckSrc (nameOf : Nat → String) (vars : List Nat) : String :=
  String.intercalate " and " (vars.enum.map (fun p => checkSrc p.1 (nameOf p.2)))

/-- Modelled from the spec: the pass compiles the synthesized super-block
source with CPython (`py.code.Source(src).compile()`); a source whose `if`
condition is the empty string (`if :`) is syntactically invalid and the
compilation — and hence the scheduling pass itself — fails before any
execution.  This predicate records whether the spliced condition yields
compilable source. -/
def pyCondCompiles (cond : String) : Bool :=
  cond ≠ ""

/-- The `copy_srcs` loop of the pass, as executed by CPython.  The loop body
evaluates `issubclass(var._dsl.Type, Bits)`, which resolves the global name
`Bits`; when `"Bits"` is not among the module's bound names this raises
`NameError` (modelled as `none`).  `kindOf` gives each variable's kind and
`nameOf` its display string. -/
def genCopySrcs (kindOf : Nat → VarKind) (nameOf : Nat → String)
    (vars : List Nat) : Option (List String) :=
  match vars with
  | [] => some []
  | _ =>
    if "Bits" ∈ openLoopModuleNames then
      some (vars.enum.map (fun p => copySrc (kindOf p.2) p.1 (nameOf p.2)))
    else none

/-! ## The method-cursor wrapper (`wrap_method` / `actual_method`)

The wrapper closes over `my_idx_new` (the target index in the methodless
projection), `my_idx_orig` (the callee port's index in the full schedule) and
the projection `schedule_no_method`.  Executed blocks are recorded as events;
a block may raise (parameter `blkRaises`), and the wrapped method body may
raise (parameter `mRaises`).  The mutable fields `top._sched.new_schedule_index`,
`top._sched.orig_schedule_index` and `top.num_cycles_executed` form the
cursor. -/

/-- The process-wide cursor `(new_idx, orig_idx, num_cycles_executed)`. -/
structure MCur where
  newIdx : Nat
  origIdx : Nat
  cycles : Nat
deriving DecidableEq

/-- An observable event of a wrapped call: execution of the projected block
at projection index `k`, or the method body itself. -/
inductive Ev where
  | blk (k : Nat)
  | mcall
deriving DecidableEq

/-- Runs the projected blocks with the given indices in order, stopping at
the first block `k` with `blkRaises k = true`; returns the indices that
completed and whether no exception occurred. -/
def runSeq (blkRaises : Nat → Bool) : List Nat → List Nat × Bool
  | [] => ([], true)
  | k :: rest =>
    if blkRaises k then ([], false)
    else
      let r := runSeq blkRaises rest
      (k :: r.1, r.2)

/-- `while i < target: schedule_no_method[i](); i += 1` — returns the final
value of `i` (the start plus the number of completed blocks), the indices of
the blocks that completed, and whether the loop finished without an
exception. -/
def runUpTo (blkRaises : Nat → Bool) (i target : Nat) : Nat × List Nat × Bool :=
  let r := runSeq blkRaises (List.range' i (target - i))
  (i + r.1.length, r.1, r.2)

/-- The body of `actual_method`.  Returns the cursor as observable after the
call (on an exception, only the mutations already performed are visible: the
index fields are written back only after the method body returns, while
`top.num_cycles_executed += 1` happens inside the wrap-around branch), the
events that completed, and whether the call returned normally. -/
def actualMethod (blkRaises : Nat → Bool) (mRaises : Bool)
    (projLen myIdxNew myIdxOrig : Nat) (c : MCur) : MCur × List Ev × Bool :=
  let i := c.newIdx
  let j := c.origIdx
  if myIdxOrig < j then
    -- finish the current cycle, wrap, and count the cycle
    let w := runUpTo blkRaises i projLen
    if w.2.2 = false then (c, w.2.1.map Ev.blk, false)
    else
      let c1 : MCur := { c with cycles := c.cycles + 1 }
      let p := runUpTo blkRaises 0 myIdxNew
      if p.2.2 = false then (c1, (w.2.1 ++ p.2.1).map Ev.blk, false)
      else if mRaises then (c1, (w.2.1 ++ p.2.1).map Ev.blk, false)
      else (⟨p.1, myIdxOrig + 1, c1.cycles⟩,
            (w.2.1 ++ p.2.1).map Ev.blk ++ [Ev.mcall], true)
  else
    let p := runUpTo blkRaises i myIdxNew
    if p.2.2 = false then (c, p.2.1.map Ev.blk, false)
    else if mRaises then (c, p.2.1.map Ev.blk, false)
    else (⟨p.1, myIdxOrig + 1, c.cycles⟩, p.2.1.map Ev.blk ++ [Ev.mcall], true)

/-! ## Wrapper installation over the full schedule

The full schedule is a list of items, each either a non-callee block or a
callee port.  `schedule_no_method` filters the callee ports out; for a callee
port at original index `p` the installation scans for the next non-callee
item and takes its index in the projection (`map_next_func`). -/

/-- An item of the full schedule as seen by the installation loop. -/
inductive WItem where
  | blk (id : Nat)
  | callee (id : Nat)
deriving DecidableEq

/-- `isinstance(x, CalleePort)`. -/
def isCallee : WItem → Bool
  | .callee _ => true
  | .blk _ => false

/-- The methodless projection `schedule_no_method` (block ids, in order). -/
def projOf (s : List WItem) : List Nat :=
  s.filterMap (fun it => match it with | .blk k => some k | .callee _ => none)

/-- Helper for `nextNonCallee`: scans a suffix whose first element has
position `q`, skipping callee ports. -/
def scanNC : List WItem → Nat → Option Nat
  | [], _ => none
  | it :: rest, q => if isCallee it then scanNC rest (q + 1) else some q

/-- The scan `next_func = i + 1; while isinstance(schedule[next_func], CalleePort): next_func += 1`:
the first position `≥ q` holding a non-callee item (`none` models running
past the end, an `IndexError` in the source). -/
def nextNonCallee (s : List WItem) (q : Nat) : Option Nat :=
  scanNC (s.drop q) q

/-- The number of non-callee items among the first `q` schedule positions:
the index in `schedule_no_method` of the block at position `q` (the
`mapping` dict of the source, positionally). -/
def projIdxAt (s : List WItem) (q : Nat) : Nat :=
  ((s.take q).filter (fun it => ¬ isCallee it)).length

/-- `map_next_func` for the callee port at schedule position `p`. -/
def targetOf (s : List WItem) (p : Nat) : Option Nat :=
  (nextNonCallee s (p + 1)).map (projIdxAt s)

/-- The block ids at schedule positions strictly between `p1` and `p2`. -/
def blkIdsBetween (s : List WItem) (p1 p2 : Nat) : List Nat :=
  projOf ((s.take p2).drop (p1 + 1))

/-! ## The installed `tick` (`normal_tick` / `SimpleTickPass.gen_tick_function`)

`top.tick` runs every block of `schedule_no_method` once, in order:

```
def normal_tick():
  for blk in schedule_no_method:
    blk()
```

(`pymtl3/passes/OpenLoopCLPass.py`; the autotick variant installs
`SimpleTickPass.gen_tick_function(schedule_no_method)`, which per the spec
"simply runs the entire projection in order").  Neither touches
`top.num_cycles_executed` or the cursor indices.  A machine state here is the
pair (value of `top.num_cycles_executed`, trace of executed block ids). -/

/-- One call of the installed `tick`. -/
def normalTick (proj : List Nat) (st : Nat × List Nat) : Nat × List Nat :=
  (st.1, st.2 ++ proj)

/-- `k` consecutive calls of `tick` with no method invocations in between. -/
def ticks (proj : List Nat) : Nat → Nat × List Nat → Nat × List Nat
  | 0, st => st
  | k + 1, st => ticks proj k (normalTick proj st)

/-! ## The scheduling pipeline (`schedule_with_top_level_callee`)

The inputs delivered by the DAG-builder collaborator and the root component.
`upblks` is `final_upblks - get_all_update_ff()`; `normalPorts` are the
top-level callee ports outside non-blocking interfaces; `nbIfcs` the
top-level non-blocking interfaces as `(rdy, method)` callee-port pairs;
`rawOf` is `get_raw_method` (the actual bound method inside a port);
`calleeCons` is `top_level_callee_constraints` (over raw methods / blocks);
`cobjs` is `constraint_objs`. -/
structure DagInput where
  upblks : List Nat
  normalPorts : List Nat
  nbIfcs : List (Nat × Nat)
  rawOf : Nat → Nat
  allCons : List (Nat × Nat)
  calleeCons : List (Nat × Nat)
  cobjs : List ((Nat × Nat) × List Nat)
  kindOf : Nat → VarKind
  sigName : Nat → String
  blkName : Nat → String
  lineTraceOn : Bool
  ffBlocks : List Nat
  hasVcd : Bool
  hasTextSigs : Bool
  posedgeBlocks : List Nat

/-- `constraint_objs[(u,v)]` (`none` models a `KeyError`). -/
def clookup (k : Nat × Nat) : List ((Nat × Nat) × List Nat) → Option (List Nat)
  | [] => none
  | (k', v) :: rest => if k' = k then some v else clookup k rest

/-- The vertex set `V`: the update blocks, the normal callee ports, and for
every non-blocking interface its `method` and its `rdy` port. -/
def buildV (inp : DagInput) : List Nat :=
  let v0 := inp.upblks.foldl insertNew []
  let v1 := inp.normalPorts.foldl insertNew v0
  inp.nbIfcs.foldl (fun v rm => insertNew (insertNew v rm.2) rm.1) v1

/-- `method_callee_mapping`: actual method → callee port.  The `assert m not
in method_callee_mapping` statements make a duplicate registration fatal
(`none`). -/
def buildMcm (inp : DagInput) : Option (List (Nat × Nat)) := do
  let m1 ← inp.normalPorts.foldlM (fun m p =>
      if (alookup (inp.rawOf p) m).isSome then none
      else some (setA (inp.rawOf p) p m)) []
  inp.nbIfcs.foldlM (fun m rm =>
      if (alookup (inp.rawOf rm.2) m).isSome then none
      else some (setA (inp.rawOf rm.1) rm.1 (setA (inp.rawOf rm.2) rm.2 m))) m1

/-- `method_guard_mapping`: nb-interface method port → rdy port. -/
def buildMgm (inp : DagInput) : List (Nat × Nat) :=
  inp.nbIfcs.foldl (fun m rm => setA rm.2 rm.1 m) []

/-- The edge set `E` and the adjacency dicts `G` (forward) and `G_T`
(reverse). -/
structure Graphs where
  E : List (Nat × Nat)
  G : Nat → List Nat
  GT : Nat → List Nat

/-- `E.add((u,v)); G[u].append(v); G_T[v].append(u)`. -/
def addCon (gs : Graphs) (u v : Nat) : Graphs :=
  { E := insertNew gs.E (u, v),
    G := fun x => if x = u then gs.G x ++ [v] else gs.G x,
    GT := fun x => if x = v then gs.GT x ++ [u] else gs.GT x }

/-- Builds `E`, `G`, `G_T`: the implicit `(rdy, method)` edge of every
non-blocking interface goes into `E` only (it is added before `G`/`G_T`
exist); `all_constraints` edges are kept when both endpoints are in `V`;
`top_level_callee_constraints` edges are endpoint-substituted through
`method_callee_mapping`, the right endpoint is redirected to its ready guard
through `method_guard_mapping`, and kept when both results are in `V`. -/
def buildGraphs (inp : DagInput) (V : List Nat) (mcm mgm : List (Nat × Nat)) : Graphs :=
  let e0 := inp.nbIfcs.foldl (fun e rm => insertNew e (rm.1, rm.2)) []
  let gs0 : Graphs := ⟨e0, fun _ => [], fun _ => []⟩
  let gs1 := inp.allCons.foldl (fun gs uv =>
      if uv.1 ∈ V ∧ uv.2 ∈ V then addCon gs uv.1 uv.2 else gs) gs0
  inp.calleeCons.foldl (fun gs xy =>
      let xx := (alookup xy.1 mcm).getD xy.1
      let yy0 := (alookup xy.2 mcm).getD xy.2
      let yy := (alookup yy0 mgm).getD yy0
      if xx ∈ V ∧ yy ∈ V then addCon gs xx yy else gs) gs1

/-! ### Kosaraju pass 1: iterative post-order DFS on `G`

The stack holds `(vertex, second_visit)` pairs; a first visit of an
unvisited vertex re-pushes it flagged and pushes `reversed(G[u])`, so the
head of the Lean list (= top of stack) is `G[u][0]`.  The iteration order
`ord` of the outer loop is the `random.shuffle`d vertex list; it is a
parameter here, so every theorem holds for every shuffle outcome.  `fuel`
bounds the stack machine (the Python loop always terminates; theorems that
need a completed traversal take the pass's own success as hypothesis). -/
def dfsRun (G : Nat → List Nat) : Nat → List (Nat × Bool) → List Nat → List Nat →
    List Nat × List Nat
  | 0, _, vis, po => (vis, po)
  | _ + 1, [], vis, po => (vis, po)
  | f + 1, (u, sv) :: st, vis, po =>
    if sv then dfsRun G f st vis (po ++ [u])
    else if u ∈ vis then dfsRun G f st vis po
    else dfsRun G f ((G u).map (fun v => (v, false)) ++ (u, true) :: st) (vis ++ [u]) po

/-- The full post-order `PO` produced by pass 1. -/
def pass1 (G : Nat → List Nat) (fuel : Nat) (ord : List Nat) : List Nat :=
  (ord.foldl (fun acc u => dfsRun G fuel [(u, false)] acc.1 acc.2)
    (([] : List Nat), ([] : List Nat))).2

/-! ### Kosaraju pass 2: BFS on `G_T` over the reverse post-order -/

/-- The queue, visited set and members of the SCC being gathered. -/
structure BState where
  q : List Nat
  vis : List Nat
  scc : List Nat

/-- `for v in G_T[u]: if v not in visited: visited.add(v); Q.append(v); scc.add(v)`. -/
def bfsStep (GT : Nat → List Nat) (u : Nat) (st : BState) : BState :=
  (GT u).foldl (fun st v =>
    if v ∈ st.vis then st
    else ⟨st.q ++ [v], st.vis ++ [v], st.scc ++ [v]⟩) st

/-- The BFS loop gathering one SCC (`idx` is its index): pops `u`, assigns
`v_SCC[u] = idx`, and expands along `G_T`. -/
def bfsRun (GT : Nat → List Nat) (idx : Nat) :
    Nat → BState → List (Nat × Nat) → List Nat × List Nat × List (Nat × Nat)
  | 0, st, vscc => (st.vis, st.scc, vscc)
  | f + 1, st, vscc =>
    match st.q with
    | [] => (st.vis, st.scc, vscc)
    | u :: rest =>
      let vscc' := setA u idx vscc
      bfsRun GT idx f (bfsStep GT u ⟨rest, st.vis, st.scc⟩) vscc'

/-- The outcome of pass 2: the visited set, the SCC list `SCCs` (each SCC in
discovery order) and the map `v_SCC`. -/
structure P2 where
  vis : List Nat
  sccs : List (List Nat)
  vscc : List (Nat × Nat)

/-- Pass 2: every unvisited vertex of the reverse post-order seeds a new SCC. -/
def pass2 (GT : Nat → List Nat) (fuel : Nat) (rpo : List Nat) : P2 :=
  rpo.foldl (fun st u =>
    if u ∈ st.vis then st
    else
      let r := bfsRun GT st.sccs.length fuel ⟨[u], st.vis ++ [u], [u]⟩ st.vscc
      ⟨r.1, st.sccs ++ [r.2.1], r.2.2⟩) ⟨[], [], []⟩

/-! ### Condensation and topological sort over SCCs -/

/-- Folds over `E`: for every edge whose endpoints lie in distinct SCCs and
whose condensed image is new, add `scc(u) → scc(v)` to `G_new` and increment
`InDeg[scc(v)]`.  `v_SCC[u]` lookups may raise (`none`). -/
def condense (vscc : List (Nat × Nat)) :
    List (Nat × Nat) → List (Nat × Nat) → (Nat → Int) →
    Option (List (Nat × Nat) × (Nat → Int))
  | [], ced, inD => some (ced, inD)
  | (u, v) :: rest, ced, inD => do
      let su ← alookup u vscc
      let sv ← alookup v vscc
      if su ≠ sv ∧ (su, sv) ∉ ced then
        condense vscc rest (ced ++ [(su, sv)])
          (fun x => if x = sv then inD x + 1 else inD x)
      else condense vscc rest ced inD

/-- `G_new[u]`, the condensed successor set of SCC `u` (deduplicated, in
insertion order). -/
def succsOf (ced : List (Nat × Nat)) (u : Nat) : List Nat :=
  (ced.filter (fun e => e.1 = u)).map (fun e => e.2)

/-- Kahn state: in-degrees, frontier `Q`, `scc_schedule`, `scc_pred`. -/
structure KState where
  inD : Nat → Int
  q : List Nat
  sched : List Nat
  pred : List (Nat × Nat)

/-- `for v in G_new[u]: InD[v] -= 1; if not InD[v]: Q.append(v); scc_pred[v] = u`. -/
def kstep (succs : Nat → List Nat) (u : Nat) (st : KState) : KState :=
  (succs u).foldl (fun st v =>
    let d := st.inD v - 1
    { inD := fun x => if x = v then d else st.inD x,
      q := if d = 0 then st.q ++ [v] else st.q,
      sched := st.sched,
      pred := if d = 0 then setA v u st.pred else st.pred }) st

/-- The `while Q` loop.  The source pops the element at the first index `i`
whose entry satisfies `Q[i] not in method_guard_mapping or Q[i] not in
guard_method_mapping`; `Q[i]` is an SCC index (an `int`) while both dicts
are keyed by vertex objects, so both membership tests are always false, the
disjunction is true already at `i = 0`, and the head of `Q` is popped every
time. -/
def kahnLoop (succs : Nat → List Nat) : Nat → KState → KState
  | 0, st => st
  | f + 1, st =>
    match st.q with
    | [] => st
    | u :: rest =>
      kahnLoop succs f (kstep succs u { st with q := rest, sched := st.sched ++ [u] })

/-! ### Intra-SCC ordering for non-trivial SCCs -/

/-- The in-degree of `v` restricted to edges internal to the SCC. -/
def internalInD (E : List (Nat × Nat)) (scc : List Nat) (v : Nat) : Nat :=
  (E.filter (fun e => e.1 ∈ scc ∧ e.2 ∈ scc ∧ e.2 = v)).length

/-- Python `max(iterable, key=f)`: the first element attaining the maximum. -/
def pyMax (f : Nat → Nat) : List Nat → Nat
  | [] => 0
  | x :: rest => rest.foldl (fun b y => if f b < f y then y else b) x

/-- The seed queue when the SCC has a predecessor SCC: every member `x`
(iterated in name-sorted order) is appended once per reverse edge from `x`
into the predecessor SCC. -/
def seedQ (GT : Nat → List Nat) (predScc : List Nat) (sccSorted : List Nat) : List Nat :=
  sccSorted.foldl (fun q x =>
    q ++ ((GT x).filter (fun v => v ∈ predScc)).map (fun _ => x)) []

/-- The BFS producing `tmp_schedule`, following forward edges inside the SCC. -/
def intraBFS (G : Nat → List Nat) (scc : List Nat) :
    Nat → List Nat → List Nat → List Nat → List Nat
  | 0, _, _, tmp => tmp
  | f + 1, q, vis, tmp =>
    match q with
    | [] => tmp
    | u :: rest =>
      let r := (G u).foldl (fun (acc : List Nat × List Nat) v =>
          if v ∈ scc ∧ v ∉ acc.2 then (acc.1 ++ [v], acc.2 ++ [v]) else acc)
        (rest, vis)
      intraBFS G scc f r.1 r.2 (tmp ++ [u])

/-- The heuristic intra-SCC linear order `tmp_schedule`. -/
def intraOrder (E : List (Nat × Nat)) (G GT : Nat → List Nat)
    (sccs : List (List Nat)) (pred : Option Nat) (scc : List Nat)
    (blkName : Nat → String) (fuel : Nat) : List Nat :=
  let q0 := match pred with
    | none => [pyMax (internalInD E scc) scc]
    | some p => seedQ GT (sccs.getD p []) (scc.mergeSort (fun a b => blkName a ≤ blkName b))
  intraBFS G scc fuel q0 q0 []

/-! ### Super-block generation and final schedule assembly -/

/-- An item of the final per-cycle schedule. -/
inductive SItem where
  | vtx (v : Nat)
  | sccBlk (members ord vars : List Nat)
  | clearTrace
  | lineTrace
  | ffBlk (k : Nat)
  | vcdF
  | textSigs
  | posedgeBlk (k : Nat)
deriving DecidableEq

/-- `variables`: the union of `constraint_objs[(u,v)]` over the edges of `E`
internal to the SCC (a `KeyError` is `none`). -/
def collectVars (E : List (Nat × Nat)) (cobjs : List ((Nat × Nat) × List Nat))
    (scc : List Nat) : Option (List Nat) :=
  E.foldlM (fun vars e =>
    if e.1 ∈ scc ∧ e.2 ∈ scc then
      match clookup e cobjs with
      | some sigs => some (sigs.foldl insertNew vars)
      | none => none
    else some vars) []

/-- Emission of one SCC of `scc_schedule`: a trivial SCC contributes its
single vertex; a non-trivial SCC computes `tmp_schedule`, collects the
trigger variables, generates the snapshot statements (`genCopySrcs`, which
raises `NameError` for a non-empty variable set because `Bits` is unbound in
the module) and compiles the template (which fails when the spliced
convergence condition is empty). -/
def emitScc (inp : DagInput) (gs : Graphs) (sccs : List (List Nat))
    (pred : List (Nat × Nat)) (fuel : Nat) (i : Nat) : Option SItem := do
  let scc ← sccs.get? i
  if scc.length = 1 then
    some (.vtx (scc.headD 0))
  else
    let tmp := intraOrder gs.E gs.G gs.GT sccs (alookup i pred) scc inp.blkName fuel
    let vars ← collectVars gs.E inp.cobjs scc
    let _ ← genCopySrcs inp.kindOf inp.sigName vars
    if pyCondCompiles (genCheckSrc inp.sigName vars) then some (.sccBlk scc tmp vars)
    else none

/-- `Option`-valued map (`none` as soon as one element fails). -/
def omap (f : α → Option β) : List α → Option (List β)
  | [] => some []
  | x :: rest => do
      let y ← f x
      let ys ← omap f rest
      some (y :: ys)

/-- The final per-cycle schedule: `clear_cl_trace`, the update sweep, the
optional line trace, the flip-flop blocks, the optional tracing hooks, and
the posedge-flip blocks. -/
def assemble (inp : DagInput) (upd : List SItem) : List SItem :=
  [SItem.clearTrace] ++ upd
    ++ (if inp.lineTraceOn then [SItem.lineTrace] else [])
    ++ inp.ffBlocks.map SItem.ffBlk
    ++ (if inp.hasVcd then [SItem.vcdF] else [])
    ++ (if inp.hasTextSigs then [SItem.textSigs] else [])
    ++ inp.posedgeBlocks.map SItem.posedgeBlk

/-- The part of the assembled schedule after the update sweep (line trace,
flip-flops, tracing hooks, posedge flips). -/
def asmTail (inp : DagInput) : List SItem :=
  (if inp.lineTraceOn then [SItem.lineTrace] else [])
    ++ inp.ffBlocks.map SItem.ffBlk
    ++ (if inp.hasVcd then [SItem.vcdF] else [])
    ++ (if inp.hasTextSigs then [SItem.textSigs] else [])
    ++ inp.posedgeBlocks.map SItem.posedgeBlk

/-- The intermediate state of the pass after condensation. -/
structure Mid where
  V : List Nat
  gs : Graphs
  sccs : List (List Nat)
  vscc : List (Nat × Nat)
  ced : List (Nat × Nat)
  inD0 : Nat → Int

/-- The pass up to and including condensation. -/
def passMid (inp : DagInput) (ord : List Nat) (fuel : Nat) : Option Mid := do
  let V := buildV inp
  let mcm ← buildMcm inp
  let mgm := buildMgm inp
  let gs := buildGraphs inp V mcm mgm
  let po := pass1 gs.G fuel ord
  let p2 := pass2 gs.GT fuel po.reverse
  let cd ← condense p2.vscc gs.E [] (fun _ => 0)
  some ⟨V, gs, p2.sccs, p2.vscc, cd.1, cd.2⟩

/-- The initial Kahn frontier `Q = [i for i in range(len(SCCs)) if not InD[i]]`. -/
def passFrontier (inp : DagInput) (ord : List Nat) (fuel : Nat) : Option (List Nat) := do
  let m ← passMid inp ord fuel
  some ((List.range m.sccs.length).filter (fun i => m.inD0 i = 0))

/-- The observable outcome of the pass. -/
structure SchedOut where
  V : List Nat
  E : List (Nat × Nat)
  sccs : List (List Nat)
  vscc : List (Nat × Nat)
  sccSched : List Nat
  schedule : List SItem
deriving DecidableEq

/-- `schedule_with_top_level_callee`: the whole scheduling pipeline.  `none`
models any exception escaping the pass (a failed assert, a `KeyError`, a
`NameError` or a failed template compilation); an input/shuffle/fuel triple
is *accepted* when the result is `some`. -/
def runPass (inp : DagInput) (ord : List Nat) (fuel : Nat) : Option SchedOut := do
  let m ← passMid inp ord fuel
  let n := m.sccs.length
  let q0 := (List.range n).filter (fun i => m.inD0 i = 0)
  let kf := kahnLoop (succsOf m.ced) fuel ⟨m.inD0, q0, [], []⟩
  if kf.sched.length = n then
    let upd ← omap (emitScc inp m.gs m.sccs kf.pred fuel) kf.sched
    some ⟨m.V, m.gs.E, m.sccs, m.vscc, kf.sched, assemble inp upd⟩
  else none

/-! ## Notions used by the scheduling invariants -/

/-- The condensed-graph predecessors of SCC `v`: the sources of the edges of
`G_new` that point to `v`. -/
def predsIn (ced : List (Nat × Nat)) (v : Nat) : List Nat :=
  (ced.filter (fun e => e.2 = v)).map (fun e => e.1)

/-- The invariant of the Kahn loop over the condensed DAG `ced` with `n`
SCCs: `InD[v]` counts the predecessors of `v` not yet scheduled; every
frontier member has all its predecessors scheduled; the schedule and the
frontier are duplicate-free SCC indices below `n`; and every scheduled SCC
has all its predecessors strictly earlier in the schedule. -/
def KInv (ced : List (Nat × Nat)) (n : Nat) (st : KState) : Prop :=
  (∀ v, st.inD v = (((predsIn ced v).filter (fun u => u ∉ st.sched)).length : Int)) ∧
  (∀ v ∈ st.q, ∀ u ∈ predsIn ced v, u ∈ st.sched) ∧
  (st.sched ++ st.q).Nodup ∧
  (∀ k v, st.sched.get? k = some v → ∀ u ∈ predsIn ced v, u ∈ st.sched.take k) ∧
  (∀ v ∈ st.sched ++ st.q, v < n)

/-- The graphs as built inside `passMid` (abbreviation for lemma statements). -/
def midGs (inp : DagInput) (mcm : List (Nat × Nat)) : Graphs :=
  buildGraphs inp (buildV inp) mcm (buildMgm inp)

/-- The pass-2 outcome as computed inside `passMid`. -/
def midP2 (inp : DagInput) (ord : List Nat) (fuel : Nat) (mcm : List (Nat × Nat)) : P2 :=
  pass2 (midGs inp mcm).GT fuel (pass1 (midGs inp mcm).G fuel ord).reverse

/-- The Kahn loop outcome as computed inside `runPass`. -/
def midKahn (m : Mid) (fuel : Nat) : KState :=
  kahnLoop (succsOf m.ced) fuel
    ⟨m.inD0, (List.range m.sccs.length).filter (fun i => m.inD0 i = 0), [], []⟩

/-- The state predicate preserved by the BFS of pass 2.  `F` marks the
vertices frozen into earlier SCCs, `scc0`/`vis0` the state at entry. -/
def BGood (F : Nat → Prop) (scc0 vis0 : List Nat) (bst : BState) : Prop :=
  (∀ x ∈ bst.q, x ∈ bst.scc) ∧ bst.scc.Nodup ∧ (∀ x ∈ bst.scc, x ∈ bst.vis) ∧
  (∀ x, F x → x ∈ bst.vis) ∧ (∀ x ∈ bst.scc, ¬ F x) ∧
  (∀ x ∈ scc0, x ∈ bst.scc) ∧ (∀ x ∈ vis0, x ∈ bst.vis)

/-- The invariant of pass 2: `v_SCC` entries point into the SCC list, SCCs
are duplicate-free and pairwise disjoint, and all members are visited. -/
def OInv (st : P2) : Prop :=
  (∀ p ∈ st.vscc, p.2 < st.sccs.length ∧ p.1 ∈ st.sccs.getD p.2 []) ∧
  (∀ l ∈ st.sccs, l.Nodup) ∧
  List.Pairwise (fun a b => ∀ x ∈ a, x ∉ b) st.sccs ∧
  (∀ l ∈ st.sccs, ∀ x ∈ l, x ∈ st.vis)

/-! ## Concrete inputs used by witnesses and counterexamples -/

/-- Scenario S1: a linear chain of three update blocks,
`V = {1,2,3}`, `E = {(1,2),(2,3)}`. -/
def chainInp : DagInput :=
  { upblks := [1, 2, 3], normalPorts := [], nbIfcs := [], rawOf := fun x => x + 100,
    allCons := [(1, 2), (2, 3)], calleeCons := [], cobjs := [],
    kindOf := fun _ => .oth, sigName := fun v => "s" ++ toString v,
    blkName := fun v => "b" ++ toString v,
    lineTraceOn := false, ffBlocks := [], hasVcd := false, hasTextSigs := false,
    posedgeBlocks := [] }

/-- One non-blocking interface (rdy = `20`, method = `21`) and one
unconstrained update block `10`. -/
def nbInp : DagInput :=
  { upblks := [10], normalPorts := [], nbIfcs := [(20, 21)], rawOf := fun x => x + 100,
    allCons := [], calleeCons := [], cobjs := [],
    kindOf := fun _ => .oth, sigName := fun v => "s" ++ toString v,
    blkName := fun v => "b" ++ toString v,
    lineTraceOn := false, ffBlocks := [], hasVcd := false, hasTextSigs := false,
    posedgeBlocks := [] }

/-- A two-block combinational cycle whose two constraint edges carry no
trigger signals at all. -/
def emptyVarsInp : DagInput :=
  { upblks := [1, 2], normalPorts := [], nbIfcs := [], rawOf := fun x => x + 100,
    allCons := [(1, 2), (2, 1)], calleeCons := [], cobjs := [((1, 2), []), ((2, 1), [])],
    kindOf := fun _ => .oth, sigName := fun v => "s" ++ toString v,
    blkName := fun v => "b" ++ toString v,
    lineTraceOn := false, ffBlocks := [], hasVcd := false, hasTextSigs := false,
    posedgeBlocks := [] }

/-- The graphs of `emptyVarsInp` as built by the pass. -/
def emptyVarsGs : Graphs :=
  buildGraphs emptyVarsInp (buildV emptyVarsInp) [] []

/-- A full schedule with two callee ports (`9` at position 1, `8` at
position 4) interleaved with four blocks. -/
def wSched : List WItem :=
  [.blk 0, .callee 9, .blk 1, .blk 2, .callee 8, .blk 3]

/-- The outcome of the pass on `chainInp` with shuffle order `[1,2,3]`. -/
def chainOut : SchedOut :=
  ⟨[1, 2, 3], [(1, 2), (2, 3)], [[1], [2], [3]], [(1, 0), (2, 1), (3, 2)], [0, 1, 2],
   [.clearTrace, .vtx 1, .vtx 2, .vtx 3]⟩

/-- The outcome of the pass on `nbInp` with shuffle order `[10, 21, 20]`. -/
def nbOut : SchedOut :=
  ⟨[10, 21, 20], [(20, 21)], [[20], [21], [10]], [(20, 0), (21, 1), (10, 2)], [0, 2, 1],
   [.clearTrace, .vtx 20, .vtx 10, .vtx 21]⟩

/-! # Lemmas and claim theorems -/

/-! ## The fixed-point super-block (claims C2 and C9) -/

lemma sccLoop_eq (vars : List Nat) (blocks : List (St → St)) (names : List String)
    (s : St) (numIters : Nat) :
    sccLoop vars blocks names s numIters =
      (let n := numIters + 1
       let s2 := sccExec blocks s
       if snapshot vars s2 = snapshot vars s then .ok (s2, n)
       else if 100 < n then .error (combLoopMsg names, n)
       else sccLoop vars blocks names s2 n) := by
  rw [sccLoop]

/-- If every sweep changes some trigger variable, the loop raises the
combinational-loop error with `num_iters = 101`. -/
lemma sccLoop_diverges (vars : List Nat) (blocks : List (St → St)) (names : List String)
    (hchg : ∀ s : St, snapshot vars (sccExec blocks s) ≠ snapshot vars s) :
    ∀ k s numIters, numIters + k = 101 → 0 < k →
      sccLoop vars blocks names s numIters = .error (combLoopMsg names, 101) := by
  intro k
  induction k with
  | zero => omega
  | succ k ih =>
    intro s numIters hsum _
    rw [sccLoop_eq]
    simp only [if_neg (hchg s)]
    by_cases h100 : 100 < numIters + 1
    · have : numIters + 1 = 101 := by omega
      simp [h100, this]
    · simp only [if_neg h100]
      exact ih (sccExec blocks s) (numIters + 1) (by omega) (by omega)

lemma toggle_changes : ∀ s : St, snapshot [0] (sccExec [toggleBlk] s) ≠ snapshot [0] s := by
  intro s h
  simp [snapshot, sccExec, toggleBlk] at h
  omega

/-- C2, counterexample: the super-block generated for an SCC of two blocks
that toggles its trigger variable on every sweep raises the
combinational-loop error with `num_iters = 101` — i.e. after 101 executions
of the intra-SCC order, not within 100 as claimed (`¬ (101 ≤ 100)`). -/
theorem claim_C2_counterexample :
    wrappedSCC [0] [toggleBlk] ["blk_A", "blk_B"] zeroSt
      = .error (combLoopMsg ["blk_A", "blk_B"], 101) ∧ ¬ (101 ≤ 100) :=
  ⟨sccLoop_diverges [0] [toggleBlk] ["blk_A", "blk_B"] toggle_changes 101 zeroSt 0
     rfl (by omega), by omega⟩

/-- C2 (amended): for a non-trivial SCC whose trigger variables never all
stabilize across an iteration, the synthesized super-block raises the
combinational-loop error on the 101st iteration of the intra-SCC order
(the bound `num_iters > 100` is strict), and the error payload is exactly
the string `"Combinational loop detected at runtime in {m1, m2, ...}!"`
built from the member names. -/
theorem claim_C2_loopBound (vars : List Nat) (blocks : List (St → St))
    (names : List String) (s : St)
    (hchg : ∀ t : St, snapshot vars (sccExec blocks t) ≠ snapshot vars t) :
    wrappedSCC vars blocks names s = .error (combLoopMsg names, 101) :=
  sccLoop_diverges vars blocks names hchg 101 s 0 rfl (by omega)

/-- Witness for C2: the amended theorem applied to the toggling SCC. -/
theorem claim_C2_witness :
    wrappedSCC [0] [toggleBlk] ["blk_B", "blk_A"] zeroSt
      = .error (combLoopMsg ["blk_B", "blk_A"], 101) :=
  claim_C2_loopBound [0] [toggleBlk] ["blk_B", "blk_A"] zeroSt toggle_changes

/-- C9: for an SCC whose blocks are idempotent over the trigger variables,
the fixed-point super-block converges exactly one iteration after
stabilization: if the first sweep already leaves the triggers unchanged it
returns after one iteration, and otherwise (the two-node-cycle scenario
where the triggers stabilize after one pass) it returns after exactly two
iterations. -/
theorem claim_C9_convergence (vars : List Nat) (blocks : List (St → St))
    (names : List String) (s : St)
    (hidem : ∀ t : St, snapshot vars (sccExec blocks (sccExec blocks t))
      = snapshot vars (sccExec blocks t)) :
    (snapshot vars (sccExec blocks s) = snapshot vars s →
      wrappedSCC vars blocks names s = .ok (sccExec blocks s, 1)) ∧
    (snapshot vars (sccExec blocks s) ≠ snapshot vars s →
      wrappedSCC vars blocks names s = .ok (sccExec blocks (sccExec blocks s), 2)) := by
  constructor
  · intro hconv
    rw [wrappedSCC, sccLoop_eq]
    simp [hconv]
  · intro hchg
    rw [wrappedSCC, sccLoop_eq]
    simp only [if_neg hchg]
    norm_num
    rw [sccLoop_eq]
    simp [hidem s]

/-- Witness for C9: a block that drives its trigger to a constant changes it
on the first sweep and is then stable; the super-block returns after exactly
two iterations. -/
theorem claim_C9_witness :
    wrappedSCC [0] [setBlk] ["blk_A", "blk_B"] zeroSt
      = .ok (sccExec [setBlk] (sccExec [setBlk] zeroSt), 2) :=
  (claim_C9_convergence [0] [setBlk] ["blk_A", "blk_B"] zeroSt (fun _ => rfl)).2
    (by decide)

/-! ## The installed `tick` (claim C4) -/

lemma ticks_spec (proj : List Nat) :
    ∀ (k : Nat) (st : Nat × List Nat),
      ticks proj k st = (st.1, st.2 ++ (List.replicate k proj).flatten) := by
  intro k
  induction k with
  | zero => intro st; simp [ticks]
  | succ k ih =>
    intro st
    rw [ticks, ih]
    simp [normalTick, List.replicate_succ]

/-- C4, counterexample: in scenario S1 (a three-block projection), one call
of the installed `tick` leaves `num_cycles_executed` at `0`, not `1` as
claimed: the tick function only runs the blocks of `schedule_no_method` and
never touches the counter. -/
theorem claim_C4_counterexample :
    (ticks [0, 1, 2] 1 (0, [])).1 = 0 ∧ (ticks [0, 1, 2] 1 (0, [])).1 ≠ 1 := by
  constructor <;> simp [ticks, normalTick]

/-- C4 (amended): after `k` calls of the installed `tick()` with no external
method invocations in between, each tick runs the entire methodless
projection exactly once, in order, but `num_cycles_executed` is unchanged
(it advances only in the wrap-around branch of a wrapped method call). -/
theorem claim_C4_tickCounter (proj : List Nat) (k : Nat) (st : Nat × List Nat) :
    (ticks proj k st).1 = st.1 ∧
    (ticks proj k st).2 = st.2 ++ (List.replicate k proj).flatten := by
  rw [ticks_spec]
  exact ⟨rfl, rfl⟩

/-! ## Snapshot generation dispatch (claim C8) -/

/-- C8: the snapshot dispatch in the source reads exactly as the claim says
(`Bits` → `.value` copy, bitstruct → `.clone()`, other → `deepcopy`), but
the module binds neither `Bits` nor `is_bitstruct_class` (only `Bits1` is
imported), so evaluating the dispatch for any non-empty trigger-variable set
raises `NameError` and the pass dies before the snapshot code exists. -/
theorem claim_C8_nameError :
    ("Bits" ∉ openLoopModuleNames ∧ "is_bitstruct_class" ∉ openLoopModuleNames) ∧
    genCopySrcs (fun _ => .bits) (fun v => "s" ++ toString v) [7] = none ∧
    copySrc .bits 0 "s7" = "t0 = s7.value" ∧
    copySrc .bitstruct 0 "s7" = "t0 = s7.clone()" ∧
    copySrc .oth 0 "s7" = "t0 = deepcopy(s7)" := by
  refine ⟨⟨by decide, by decide⟩, ?_, rfl, rfl, rfl⟩
  simp [genCopySrcs, openLoopModuleNames]

/-! ## Empty convergence condition (claim C10) -/

/-- C10: when the union of `ConstraintVars` over the internal edges of a
non-trivial SCC is empty, the `" and "`-joined convergence condition is the
empty string, the generated `if :` does not compile, and the emission of
that SCC — and hence the scheduling pass itself — fails before any
execution. -/
theorem claim_C10_emptyCond (inp : DagInput) (gs : Graphs) (sccs : List (List Nat))
    (pred : List (Nat × Nat)) (fuel i : Nat) (scc : List Nat)
    (hscc : sccs.get? i = some scc) (hnt : scc.length ≠ 1)
    (hvars : collectVars gs.E inp.cobjs scc = some []) :
    genCheckSrc inp.sigName [] = "" ∧ pyCondCompiles "" = false ∧
    emitScc inp gs sccs pred fuel i = none := by
  have hg : genCheckSrc inp.sigName [] = "" := rfl
  refine ⟨hg, rfl, ?_⟩
  unfold emitScc
  rw [hscc]
  simp [hnt, hvars, genCopySrcs, pyCondCompiles, hg]

/-- Witness for C10: the two-block cycle with empty constraint-variable sets. -/
theorem claim_C10_witness :
    genCheckSrc emptyVarsInp.sigName [] = "" ∧ pyCondCompiles "" = false ∧
    emitScc emptyVarsInp emptyVarsGs [[1, 2]] [] 50 0 = none :=
  claim_C10_emptyCond emptyVarsInp emptyVarsGs [[1, 2]] [] 50 0 [1, 2]
    (by decide) (by decide) (by decide)

/-! ## Error atomicity of the method wrapper (claim C7) -/

/-- C7, counterexample: a wrapped call that wraps around (its end-of-cycle
run succeeds and increments `num_cycles_executed`) and then fails in the
prefix run leaves the cursor triple *changed*: projection `[b0,b1,b2]`,
method target `2`, method original index `0`, block `1` raising, starting
cursor `(2, 1, 5)` — the call errors out yet the observable cursor is
`(2, 1, 6) ≠ (2, 1, 5)`. -/
theorem claim_C7_counterexample :
    (actualMethod (fun k => k == 1) false 3 2 0 ⟨2, 1, 5⟩).2.2 = false ∧
    (actualMethod (fun k => k == 1) false 3 2 0 ⟨2, 1, 5⟩).1 ≠ (⟨2, 1, 5⟩ : MCur) := by
  decide

/-- C7 (amended): if an exception is raised during a wrapped callee-port
invocation, `new_schedule_index` and `orig_schedule_index` are left
unchanged (they are written back only after the method body returns) and the
error propagates; `num_cycles_executed`, however, is unchanged only when the
call did not complete a wrap-around — if the invocation entered the
wrap-around branch and its end-of-cycle run succeeded, the counter has
already been incremented by one. -/
theorem claim_C7_errorCursor (br : Nat → Bool) (mr : Bool) (projLen myNew myOrig : Nat)
    (c : MCur)
    (herr : (actualMethod br mr projLen myNew myOrig c).2.2 = false) :
    (actualMethod br mr projLen myNew myOrig c).1.newIdx = c.newIdx ∧
    (actualMethod br mr projLen myNew myOrig c).1.origIdx = c.origIdx ∧
    (actualMethod br mr projLen myNew myOrig c).1.cycles =
      (if myOrig < c.origIdx ∧ (runUpTo br c.newIdx projLen).2.2 = true
       then c.cycles + 1 else c.cycles) := by
  by_cases hw : myOrig < c.origIdx
  · cases hok : (runUpTo br c.newIdx projLen).2.2 with
    | false =>
      simp [actualMethod, hw, hok]
    | true =>
      cases hok2 : (runUpTo br 0 myNew).2.2 with
      | false =>
        simp [actualMethod, hw, hok, hok2]
      | true =>
        cases hmr : mr with
        | false =>
          simp [actualMethod, hw, hok, hok2, hmr] at herr
        | true =>
          simp [actualMethod, hw, hok, hok2, hmr]
  · cases hok : (runUpTo br c.newIdx myNew).2.2 with
    | false =>
      simp [actualMethod, hw, hok]
    | true =>
      cases hmr : mr with
      | false =>
        simp [actualMethod, hw, hok, hmr] at herr
      | true =>
        simp [actualMethod, hw, hok, hmr]

/-- Witness for C7: a method body that raises after a completed wrap-around;
the index fields keep their old values and the counter is one greater. -/
theorem claim_C7_witness :
    (actualMethod (fun _ => false) true 3 2 0 ⟨2, 1, 5⟩).1.newIdx = 2 ∧
    (actualMethod (fun _ => false) true 3 2 0 ⟨2, 1, 5⟩).1.origIdx = 1 ∧
    (actualMethod (fun _ => false) true 3 2 0 ⟨2, 1, 5⟩).1.cycles =
      (if 0 < 1 ∧ (runUpTo (fun _ => false) 2 3).2.2 = true then 5 + 1 else 5) :=
  claim_C7_errorCursor (fun _ => false) true 3 2 0 ⟨2, 1, 5⟩ (by decide)

/-! ## The method-call execution window (claim C3) -/

lemma runSeq_noraise (l : List Nat) : runSeq (fun _ => false) l = (l, true) := by
  induction l with
  | nil => rfl
  | cons k rest ih => simp [runSeq, ih]

lemma runUpTo_noraise (i t : Nat) :
    runUpTo (fun _ => false) i t = (i + (t - i), List.range' i (t - i), true) := by
  simp [runUpTo, runSeq_noraise]

/-- A wrapped call that does not wrap around executes exactly the projected
blocks from the cursor up to (excluding) the target, then the method body,
and returns; the cursor advances to `(target, my_idx_orig + 1)`. -/
lemma actualMethod_nowrap (projLen myNew myOrig : Nat) (c : MCur)
    (hj : c.origIdx ≤ myOrig) (hi : c.newIdx ≤ myNew) :
    actualMethod (fun _ => false) false projLen myNew myOrig c =
      (⟨myNew, myOrig + 1, c.cycles⟩,
        (List.range' c.newIdx (myNew - c.newIdx)).map Ev.blk ++ [Ev.mcall], true) := by
  have h : c.newIdx + (myNew - c.newIdx) = myNew := by omega
  simp [actualMethod, Nat.not_lt.mpr hj, runUpTo_noraise, h]

lemma scanNC_spec :
    ∀ (l : List WItem) (q r : Nat), scanNC l q = some r →
      q ≤ r ∧ (∃ it, l[r - q]? = some it ∧ isCallee it = false) ∧
      ∀ j, q ≤ j → j < r → ∃ it, l[j - q]? = some it ∧ isCallee it = true := by
  intro l
  induction l with
  | nil => intro q r h; simp [scanNC] at h
  | cons it rest ih =>
    intro q r h
    rw [scanNC] at h
    by_cases hcal : isCallee it = true
    · rw [if_pos hcal] at h
      obtain ⟨hqr, ⟨it2, hget, hit2⟩, hmid⟩ := ih (q + 1) r h
      refine ⟨by omega, ⟨it2, ?_, hit2⟩, ?_⟩
      · have he : r - q = (r - (q + 1)) + 1 := by omega
        rw [he]
        simpa using hget
      · intro j hqj hjr
        by_cases hjq : j = q
        · subst hjq
          exact ⟨it, by simp, hcal⟩
        · obtain ⟨it3, hget3, hit3⟩ := hmid j (by omega) hjr
          refine ⟨it3, ?_, hit3⟩
          have he : j - q = (j - (q + 1)) + 1 := by omega
          rw [he]
          simpa using hget3
    · rw [if_neg hcal] at h
      obtain rfl : q = r := by simpa using h
      exact ⟨le_refl _, ⟨it, by simp, by simpa using hcal⟩, by omega⟩

lemma nextNonCallee_spec (s : List WItem) (q r : Nat) (h : nextNonCallee s q = some r) :
    q ≤ r ∧ (∃ it, s[r]? = some it ∧ isCallee it = false) ∧
    ∀ j, q ≤ j → j < r → ∃ it, s[j]? = some it ∧ isCallee it = true := by
  obtain ⟨hqr, ⟨it, hget, hit⟩, hmid⟩ := scanNC_spec (s.drop q) q r h
  rw [List.getElem?_drop] at hget
  refine ⟨hqr, ⟨it, by rw [← Nat.add_sub_cancel' hqr]; exact hget, hit⟩, ?_⟩
  intro j hqj hjr
  obtain ⟨it2, hget2, hit2⟩ := hmid j hqj hjr
  rw [List.getElem?_drop] at hget2
  exact ⟨it2, by rw [← Nat.add_sub_cancel' hqj]; exact hget2, hit2⟩

lemma projIdxAt_succ_callee (s : List WItem) (b : Nat) (it : WItem)
    (hget : s[b]? = some it) (hit : isCallee it = true) :
    projIdxAt s (b + 1) = projIdxAt s b := by
  unfold projIdxAt
  rw [List.take_succ, hget]
  simp [hit]

lemma projIdxAt_congr (s : List WItem) :
    ∀ (b a : Nat), a ≤ b →
      (∀ j, a ≤ j → j < b → ∃ it, s[j]? = some it ∧ isCallee it = true) →
      projIdxAt s b = projIdxAt s a := by
  intro b
  induction b with
  | zero =>
    intro a ha _
    obtain rfl : a = 0 := by omega
    rfl
  | succ b ih =>
    intro a hab hcal
    by_cases hba : a = b + 1
    · rw [hba]
    · have hab' : a ≤ b := by omega
      obtain ⟨it, hget, hit⟩ := hcal b hab' (by omega)
      rw [projIdxAt_succ_callee s b it hget hit]
      exact ih a hab' (fun j hj hjb => hcal j hj (by omega))

/-- `map_next_func` of a callee port equals the number of non-callee items
before the port: every item between it and the next non-callee item is
itself a callee port. -/
lemma targetOf_eq (s : List WItem) (p id : Nat)
    (hp : s[p]? = some (.callee id)) :
    ∀ t, targetOf s p = some t → t = projIdxAt s p := by
  intro t ht
  unfold targetOf at ht
  cases hnc : nextNonCallee s (p + 1) with
  | none => rw [hnc] at ht; simp at ht
  | some r =>
    rw [hnc] at ht
    simp at ht
    obtain ⟨hqr, _, hmid⟩ := nextNonCallee_spec s (p + 1) r hnc
    have h1 : projIdxAt s r = projIdxAt s (p + 1) := projIdxAt_congr s r (p + 1) hqr hmid
    have h2 : projIdxAt s (p + 1) = projIdxAt s p :=
      projIdxAt_succ_callee s p (.callee id) hp rfl
    omega

lemma projOf_length (l : List WItem) :
    (projOf l).length = (l.filter (fun it => ¬ isCallee it)).length := by
  induction l with
  | nil => rfl
  | cons it rest ih =>
    cases it with
    | blk k => simp [projOf, isCallee, List.filter] at ih ⊢; omega
    | callee k => simpa [projOf, isCallee, List.filter] using ih

lemma projOf_take_length (s : List WItem) (q : Nat) :
    (projOf (s.take q)).length = projIdxAt s q := by
  rw [projOf_length]; rfl

lemma projOf_append (l1 l2 : List WItem) : projOf (l1 ++ l2) = projOf l1 ++ projOf l2 := by
  simp [projOf]

/-- The projection slice `[t1, t2)` between the targets of two callee ports
at positions `p1 < p2` is exactly the list of block ids at schedule
positions strictly between `p1` and `p2`. -/
lemma slice_decomp (s : List WItem) (p1 p2 t1 t2 id1 id2 : Nat)
    (h1 : s[p1]? = some (.callee id1)) (h2 : s[p2]? = some (.callee id2))
    (hp : p1 < p2) (ht1 : targetOf s p1 = some t1) (ht2 : targetOf s p2 = some t2) :
    t1 ≤ t2 ∧ t2 ≤ (projOf s).length ∧
    ((projOf s).take t2).drop t1 = blkIdsBetween s p1 p2 := by
  have e1 : t1 = projIdxAt s p1 := targetOf_eq s p1 id1 h1 t1 ht1
  have e2 : t2 = projIdxAt s p2 := targetOf_eq s p2 id2 h2 t2 ht2
  have eA : t1 = (projOf (s.take (p1 + 1))).length := by
    rw [projOf_take_length, projIdxAt_succ_callee s p1 _ h1 rfl, ← e1]
  have eAB : s.take (p1 + 1) ++ (s.take p2).drop (p1 + 1) = s.take p2 := by
    have h : (s.take p2).take (p1 + 1) = s.take (p1 + 1) := by
      rw [List.take_take]
      congr 1
      omega
    conv_lhs => rw [← h]
    exact List.take_append_drop _ _
  have eP2 : t2 = (projOf (s.take p2)).length := by
    rw [projOf_take_length, ← e2]
  have hsplit : projOf s = projOf (s.take p2) ++ projOf (s.drop p2) := by
    conv_lhs => rw [← List.take_append_drop p2 s]
    exact projOf_append _ _
  have hsplit2 : projOf (s.take p2)
      = projOf (s.take (p1 + 1)) ++ projOf ((s.take p2).drop (p1 + 1)) := by
    conv_lhs => rw [← eAB]
    exact projOf_append _ _
  have hlen : t2 = t1 + (projOf ((s.take p2).drop (p1 + 1))).length := by
    rw [eP2, hsplit2, List.length_append, ← eA]
  refine ⟨by omega, ?_, ?_⟩
  · rw [hsplit, List.length_append, ← eP2]
    omega
  · rw [hsplit, List.take_left' eP2.symm, hsplit2, List.drop_left' eA.symm]
    rfl

/-- C3: a wrapped callee-port invocation with no wrap-around executes
exactly the projected blocks from the current cursor position up to (but not
including) the method's target projection index, then the method body, and
returns control without executing any further blocks; consequently, between
two method invocations within a single cycle (ports at original positions
`p1 < p2`), the blocks executed by the second call are the projection slice
`[t1, t2)`, which is exactly the list of projected blocks whose original
indices fall strictly between the two methods — each executed exactly once,
in schedule order. -/
theorem claim_C3_methodWindow (s : List WItem) (id1 id2 p1 p2 t1 t2 : Nat) (c : MCur)
    (h1 : s[p1]? = some (.callee id1)) (h2 : s[p2]? = some (.callee id2))
    (hp : p1 < p2)
    (ht1 : targetOf s p1 = some t1) (ht2 : targetOf s p2 = some t2)
    (hc : c.origIdx ≤ p1) (hn : c.newIdx ≤ t1) :
    actualMethod (fun _ => false) false (projOf s).length t1 p1 c =
      (⟨t1, p1 + 1, c.cycles⟩,
        (List.range' c.newIdx (t1 - c.newIdx)).map Ev.blk ++ [Ev.mcall], true) ∧
    actualMethod (fun _ => false) false (projOf s).length t2 p2 ⟨t1, p1 + 1, c.cycles⟩ =
      (⟨t2, p2 + 1, c.cycles⟩,
        (List.range' t1 (t2 - t1)).map Ev.blk ++ [Ev.mcall], true) ∧
    ((projOf s).take t2).drop t1 = blkIdsBetween s p1 p2 := by
  obtain ⟨hle, hlen2, hslice⟩ := slice_decomp s p1 p2 t1 t2 id1 id2 h1 h2 hp ht1 ht2
  refine ⟨actualMethod_nowrap _ t1 p1 c hc hn, ?_, hslice⟩
  exact actualMethod_nowrap _ t2 p2 ⟨t1, p1 + 1, c.cycles⟩ (show p1 + 1 ≤ p2 by omega) hle

/-- Witness for C3: the schedule `wSched` with callee ports at positions 1
and 4 (targets 1 and 3): the first call runs block 0 then the method; the
second call runs blocks 1 and 2 (exactly those between the two ports) then
the method. -/
theorem claim_C3_witness :
    actualMethod (fun _ => false) false (projOf wSched).length 1 1 ⟨0, 0, 0⟩ =
      (⟨1, 1 + 1, 0⟩, (List.range' 0 (1 - 0)).map Ev.blk ++ [Ev.mcall], true) ∧
    actualMethod (fun _ => false) false (projOf wSched).length 3 4 ⟨1, 1 + 1, 0⟩ =
      (⟨3, 4 + 1, 0⟩, (List.range' 1 (3 - 1)).map Ev.blk ++ [Ev.mcall], true) ∧
    ((projOf wSched).take 3).drop 1 = blkIdsBetween wSched 1 4 :=
  claim_C3_methodWindow wSched 9 8 1 4 1 3 ⟨0, 0, 0⟩ (by decide) (by decide)
    (by decide) (by decide) (by decide) (by decide) (by decide)

/-! ## The scheduling pipeline: invariants and claims C1, C5, C6 -/
/-- Everything the Kahn proof needs from `condense`. -/
lemma condense_invariant (vscc : List (Nat × Nat)) :
    ∀ (E ced0 : List (Nat × Nat)) (inD0 : Nat → Int) (ced : List (Nat × Nat))
      (inD : Nat → Int),
      condense vscc E ced0 inD0 = some (ced, inD) →
      (∀ e, e ∈ ced0 → e ∈ ced) ∧
      (∀ e, e ∈ ced → e ∈ ced0 ∨
        (e.1 ≠ e.2 ∧ ∃ uv, uv ∈ E ∧ alookup uv.1 vscc = some e.1 ∧
          alookup uv.2 vscc = some e.2)) ∧
      (ced0.Nodup → ced.Nodup) ∧
      (∀ uv, uv ∈ E → ∀ su sv, alookup uv.1 vscc = some su →
        alookup uv.2 vscc = some sv → su ≠ sv → (su, sv) ∈ ced) ∧
      (∀ uv, uv ∈ E → (alookup uv.1 vscc).isSome ∧ (alookup uv.2 vscc).isSome) ∧
      ((∀ v, inD0 v = (((ced0.filter (fun e => e.2 = v)).length : Nat) : Int)) →
        ∀ v, inD v = (((ced.filter (fun e => e.2 = v)).length : Nat) : Int)) := by
  intro E
  induction E with
  | nil =>
    intro ced0 inD0 ced inD h
    rw [condense] at h
    injection h with h
    injection h with h1 h2
    subst h1; subst h2
    exact ⟨fun e he => he, fun e he => Or.inl he, id, fun uv h => absurd h (List.not_mem_nil uv),
      fun uv h => absurd h (List.not_mem_nil uv), fun hb => hb⟩
  | cons uv rest ih =>
    obtain ⟨u, v⟩ := uv
    intro ced0 inD0 ced inD h
    rw [condense] at h
    cases hsu : alookup u vscc with
    | none => rw [hsu] at h; simp at h
    | some su =>
      cases hsv : alookup v vscc with
      | none => rw [hsu, hsv] at h; simp at h
      | some sv =>
        rw [hsu, hsv] at h
        simp only [Option.bind_eq_bind, Option.some_bind] at h
        by_cases hcond : su ≠ sv ∧ (su, sv) ∉ ced0
        · rw [if_pos hcond] at h
          obtain ⟨Hsub, Horig, Hnd, Hcomp, Hdom, Hcnt⟩ :=
            ih (ced0 ++ [(su, sv)]) (fun x => if x = sv then inD0 x + 1 else inD0 x) ced inD h
          refine ⟨?_, ?_, ?_, ?_, ?_, ?_⟩
          · intro e he
            exact Hsub e (List.mem_append_left _ he)
          · intro e he
            rcases Horig e he with hin | ⟨hne, uv', huv', hl1, hl2⟩
            · rcases List.mem_append.mp hin with h0 | hnew
              · exact Or.inl h0
              · obtain rfl : e = (su, sv) := by simpa using hnew
                exact Or.inr ⟨hcond.1, (u, v), List.mem_cons_self _ _, hsu, hsv⟩
            · exact Or.inr ⟨hne, uv', List.mem_cons_of_mem _ huv', hl1, hl2⟩
          · intro hnd0
            apply Hnd
            rw [List.nodup_append]
            exact ⟨hnd0, List.nodup_singleton _, by simpa using hcond.2⟩
          · intro uv' huv' su' sv' hsu' hsv' hne'
            rcases List.mem_cons.mp huv' with rfl | hrest
            · rw [hsu] at hsu'; rw [hsv] at hsv'
              injection hsu' with e1; injection hsv' with e2
              subst e1; subst e2
              exact Hsub _ (List.mem_append_right _ (List.mem_singleton_self _))
            · exact Hcomp uv' hrest su' sv' hsu' hsv' hne'
          · intro uv' huv'
            rcases List.mem_cons.mp huv' with rfl | hrest
            · exact ⟨by rw [hsu]; rfl, by rw [hsv]; rfl⟩
            · exact Hdom uv' hrest
          · intro hbase
            apply Hcnt
            intro w
            rw [List.filter_append, List.length_append]
            by_cases hw : w = sv
            · subst hw
              simp [hbase w]
            · have hsvw : sv ≠ w := fun hh => hw hh.symm
              have hz : ((([((su, sv))] : List (Nat × Nat)).filter (fun e => e.2 = w)).length) = 0 := by
                simp [List.filter_singleton, hsvw]
              simp only [hz, Nat.add_zero]
              rw [if_neg hw]
              exact hbase w
        · rw [if_neg hcond] at h
          obtain ⟨Hsub, Horig, Hnd, Hcomp, Hdom, Hcnt⟩ := ih ced0 inD0 ced inD h
          refine ⟨Hsub, ?_, Hnd, ?_, ?_, Hcnt⟩
          · intro e he
            rcases Horig e he with hin | ⟨hne, uv', huv', hl1, hl2⟩
            · exact Or.inl hin
            · exact Or.inr ⟨hne, uv', List.mem_cons_of_mem _ huv', hl1, hl2⟩
          · intro uv' huv' su' sv' hsu' hsv' hne'
            rcases List.mem_cons.mp huv' with rfl | hrest
            · rw [hsu] at hsu'; rw [hsv] at hsv'
              injection hsu' with e1; injection hsv' with e2
              subst e1; subst e2
              have hmem : (su, sv) ∈ ced0 := by
                by_contra hnot
                exact hcond ⟨hne', hnot⟩
              exact Hsub _ hmem
            · exact Hcomp uv' hrest su' sv' hsu' hsv' hne'
          · intro uv' huv'
            rcases List.mem_cons.mp huv' with rfl | hrest
            · exact ⟨by rw [hsu]; rfl, by rw [hsv]; rfl⟩
            · exact Hdom uv' hrest




lemma mem_succsOf (ced : List (Nat × Nat)) (u x : Nat) :
    x ∈ succsOf ced u ↔ (u, x) ∈ ced := by
  unfold succsOf
  simp only [List.mem_map, List.mem_filter, decide_eq_true_eq]
  constructor
  · rintro ⟨e, ⟨he, h1⟩, h2⟩
    have : e = (u, x) := by
      cases e
      simp_all
    rwa [this] at he
  · intro h
    exact ⟨(u, x), ⟨h, rfl⟩, rfl⟩

lemma mem_predsIn (ced : List (Nat × Nat)) (v x : Nat) :
    x ∈ predsIn ced v ↔ (x, v) ∈ ced := by
  unfold predsIn
  simp only [List.mem_map, List.mem_filter, decide_eq_true_eq]
  constructor
  · rintro ⟨e, ⟨he, h1⟩, h2⟩
    have : e = (x, v) := by
      cases e
      simp_all
    rwa [this] at he
  · intro h
    exact ⟨(x, v), ⟨h, rfl⟩, rfl⟩

lemma succsOf_nodup (ced : List (Nat × Nat)) (hnd : ced.Nodup) (u : Nat) :
    (succsOf ced u).Nodup := by
  unfold succsOf
  apply List.Nodup.map_on _ (hnd.filter _)
  intro x hx y hy hxy
  rcases List.mem_filter.mp hx with ⟨_, hx1⟩
  rcases List.mem_filter.mp hy with ⟨_, hy1⟩
  simp only [decide_eq_true_eq] at hx1 hy1
  cases x; cases y; simp_all

lemma predsIn_nodup (ced : List (Nat × Nat)) (hnd : ced.Nodup) (v : Nat) :
    (predsIn ced v).Nodup := by
  unfold predsIn
  apply List.Nodup.map_on _ (hnd.filter _)
  intro x hx y hy hxy
  rcases List.mem_filter.mp hx with ⟨_, hx1⟩
  rcases List.mem_filter.mp hy with ⟨_, hy1⟩
  simp only [decide_eq_true_eq] at hx1 hy1
  cases x; cases y; simp_all

lemma filter_out_one (u : Nat) (s : List Nat) (hu : u ∉ s)
    (l : List Nat) (hl : l.Nodup) :
    (l.filter (fun y => y ∉ s ++ [u])).length + (if u ∈ l then 1 else 0)
      = (l.filter (fun y => y ∉ s)).length := by
  have hpred : ∀ y, (decide (y ∉ s ++ [u])) = (decide (¬ y = u) && decide (y ∉ s)) := by
    intro y
    by_cases h1 : y ∈ s <;> by_cases h2 : y = u <;> simp [h1, h2]
  have hsplit : l.filter (fun y => y ∉ s ++ [u])
      = (l.filter (fun y => y ∉ s)).filter (fun y => ¬ y = u) := by
    rw [List.filter_filter]
    exact List.filter_congr (fun y _ => hpred y)
  set f := l.filter (fun y => y ∉ s) with hf
  have hfnd : f.Nodup := hl.filter _
  have herase : f.filter (fun y => ¬ y = u) = f.erase u := by
    rw [List.Nodup.erase_eq_filter hfnd]
    apply List.filter_congr
    intro y _
    by_cases h : y = u <;> simp [h]
  rw [hsplit, herase]
  have hmemf : u ∈ f ↔ u ∈ l := by
    rw [hf]
    simp [List.mem_filter, hu]
  by_cases hul : u ∈ l
  · have huf : u ∈ f := hmemf.mpr hul
    rw [List.length_erase_of_mem huf]
    have hpos : 0 < f.length := List.length_pos_of_mem huf
    simp only [hul, if_pos]
    omega
  · have huf : u ∉ f := fun hh => hul (hmemf.mp hh)
    rw [List.erase_of_not_mem huf]
    simp [hul]

/-- Closed form of the successor-processing fold of the Kahn loop. -/
lemma kstep_spec (u : Nat) :
    ∀ (L : List Nat), L.Nodup → ∀ st : KState,
      (kstep (fun _ => L) u st).sched = st.sched ∧
      (∀ x, (kstep (fun _ => L) u st).inD x = st.inD x - (if x ∈ L then 1 else 0)) ∧
      (kstep (fun _ => L) u st).q = st.q ++ L.filter (fun v => st.inD v = 1) := by
  intro L
  induction L with
  | nil =>
    intro _ st
    refine ⟨rfl, fun x => by simp [kstep], by simp [kstep]⟩
  | cons v L2 ih =>
    intro hnd st
    have hvL : v ∉ L2 := (List.nodup_cons.mp hnd).1
    set st1 : KState :=
      { inD := fun x => if x = v then st.inD v - 1 else st.inD x,
        q := if st.inD v - 1 = 0 then st.q ++ [v] else st.q,
        sched := st.sched,
        pred := if st.inD v - 1 = 0 then setA v u st.pred else st.pred } with hst1
    have hunf : kstep (fun _ => v :: L2) u st = kstep (fun _ => L2) u st1 := rfl
    obtain ⟨ihs, ihd, ihq⟩ := ih (List.nodup_cons.mp hnd).2 st1
    refine ⟨by rw [hunf, ihs], ?_, ?_⟩
    · intro x
      rw [hunf, ihd x]
      by_cases hx : x = v
      · subst hx
        have : x ∉ L2 := hvL
        simp [this, hst1]
      · simp [hst1, hx, List.mem_cons, hx]
    · rw [hunf, ihq]
      have hfe : L2.filter (fun w => st1.inD w = 1) = L2.filter (fun w => st.inD w = 1) := by
        apply List.filter_congr
        intro w hw
        have hwv : ¬ (w = v) := fun hh => hvL (hh ▸ hw)
        simp [hst1, hwv]
      rw [hfe]
      have hq1 : st1.q = st.q ++ (if st.inD v = 1 then [v] else []) := by
        rw [hst1]
        by_cases hv1 : st.inD v = 1
        · simp [hv1]
        · have : ¬ (st.inD v - 1 = 0) := fun hh => hv1 (by omega)
          simp [this, hv1]
      rw [hq1, List.filter_cons]
      by_cases hv1 : st.inD v = 1
      · simp [hv1, List.append_assoc]
      · simp [hv1]

/-- One iteration of the Kahn loop preserves the invariant. -/
lemma kinv_step (ced : List (Nat × Nat)) (n : Nat)
    (hced : ∀ e ∈ ced, e.1 < n ∧ e.2 < n ∧ e.1 ≠ e.2) (hnd : ced.Nodup)
    (inD : Nat → Int) (u : Nat) (rest sched : List Nat) (pred : List (Nat × Nat))
    (hinv : KInv ced n ⟨inD, u :: rest, sched, pred⟩) :
    KInv ced n (kstep (succsOf ced) u ⟨inD, rest, sched ++ [u], pred⟩) := by
  obtain ⟨A, B, C, D, E⟩ := hinv
  simp only at A B C D E
  have hnds : sched.Nodup := (List.nodup_append.mp C).1
  have hndq : (u :: rest).Nodup := (List.nodup_append.mp C).2.1
  have hdisj : sched.Disjoint (u :: rest) := (List.nodup_append.mp C).2.2
  have hus : u ∉ sched := fun hh => hdisj hh (List.mem_cons_self u rest)
  have hpu : ∀ w ∈ predsIn ced u, w ∈ sched := B u (List.mem_cons_self u rest)
  have hL : (succsOf ced u).Nodup := succsOf_nodup ced hnd u
  obtain ⟨Ps, Pd, Pq⟩ := kstep_spec u (succsOf ced u) hL ⟨inD, rest, sched ++ [u], pred⟩
  show KInv ced n (kstep (fun _ => succsOf ced u) u ⟨inD, rest, sched ++ [u], pred⟩)
  have memnew : ∀ v ∈ (succsOf ced u).filter (fun v => inD v = 1),
      (u, v) ∈ ced ∧ inD v = 1 := by
    intro v hv
    rcases List.mem_filter.mp hv with ⟨hvL, hv1⟩
    exact ⟨(mem_succsOf ced u v).mp hvL, by simpa using hv1⟩
  have hnotsched : ∀ v, (u, v) ∈ ced → v ∉ sched := by
    intro v hv hvs
    obtain ⟨j, hj⟩ := List.mem_iff_get?.mp hvs
    have hw := D j v hj u ((mem_predsIn ced v u).mpr hv)
    exact hus (List.take_subset j sched hw)
  have hnotrest : ∀ v, (u, v) ∈ ced → v ∉ rest := by
    intro v hv hvr
    exact hus (B v (List.mem_cons_of_mem _ hvr) u ((mem_predsIn ced v u).mpr hv))
  have hnotu : ∀ v, (u, v) ∈ ced → v ≠ u := by
    intro v hv hvu
    exact ((hced (u, v) hv).2.2) (hvu ▸ rfl)
  refine ⟨?_, ?_, ?_, ?_, ?_⟩
  · -- in-degree counts
    intro x
    rw [Pd x, Ps]
    simp only
    have hcnt := filter_out_one u sched hus (predsIn ced x) (predsIn_nodup ced hnd x)
    have hx := A x
    by_cases hm : x ∈ succsOf ced u
    · have hm2 : u ∈ predsIn ced x := (mem_predsIn ced x u).mpr ((mem_succsOf ced u x).mp hm)
      rw [if_pos hm]
      rw [if_pos hm2] at hcnt
      omega
    · have hm2 : u ∉ predsIn ced x :=
        fun hh => hm ((mem_succsOf ced u x).mpr ((mem_predsIn ced x u).mp hh))
      rw [if_neg hm]
      rw [if_neg hm2] at hcnt
      omega
  · -- frontier members have all predecessors scheduled
    rw [Pq, Ps]
    simp only
    intro v hv w hw
    rcases List.mem_append.mp hv with hv2 | hv2
    · exact List.mem_append_left _ (B v (List.mem_cons_of_mem _ hv2) w hw)
    · obtain ⟨hvc, hv1⟩ := memnew v hv2
      by_cases hws : w ∈ sched
      · exact List.mem_append_left _ hws
      · have hlen1 : ((predsIn ced v).filter (fun y => y ∉ sched)).length = 1 := by
          have := A v
          rw [hv1] at this
          exact_mod_cast this.symm
        obtain ⟨a, ha⟩ := List.length_eq_one.mp hlen1
        have hwmem : w ∈ (predsIn ced v).filter (fun y => y ∉ sched) :=
          List.mem_filter.mpr ⟨hw, by simpa using hws⟩
        have humem : u ∈ (predsIn ced v).filter (fun y => y ∉ sched) :=
          List.mem_filter.mpr ⟨(mem_predsIn ced v u).mpr hvc, by simpa using hus⟩
        rw [ha] at hwmem humem
        have hwa : w = a := by simpa using hwmem
        have hua : u = a := by simpa using humem
        rw [hwa, ← hua]
        exact List.mem_append_right _ (List.mem_singleton_self u)
  · -- no duplicates
    rw [Ps, Pq]
    simp only
    have hnd_su : (sched ++ [u]).Nodup := by
      rw [List.nodup_append]
      exact ⟨hnds, List.nodup_singleton u,
        fun x hx hxu => hus ((List.mem_singleton.mp hxu) ▸ hx)⟩
    have hndrest : rest.Nodup := (List.nodup_cons.mp hndq).2
    have hnd_newQ : ((succsOf ced u).filter (fun v => inD v = 1)).Nodup := hL.filter _
    have hdisj2 : rest.Disjoint ((succsOf ced u).filter (fun v => inD v = 1)) :=
      fun x hx hx2 => (hnotrest x (memnew x hx2).1) hx
    have hnd_q2 : (rest ++ (succsOf ced u).filter (fun v => inD v = 1)).Nodup :=
      List.nodup_append.mpr ⟨hndrest, hnd_newQ, hdisj2⟩
    have hdisj3 : (sched ++ [u]).Disjoint (rest ++ (succsOf ced u).filter (fun v => inD v = 1)) := by
      intro x hx hx2
      rcases List.mem_append.mp hx with hxs | hxu
      · rcases List.mem_append.mp hx2 with hxr | hxq
        · exact hdisj hxs (List.mem_cons_of_mem _ hxr)
        · exact (hnotsched x (memnew x hxq).1) hxs
      · have hxu2 : x = u := List.mem_singleton.mp hxu
        subst hxu2
        rcases List.mem_append.mp hx2 with hxr | hxq
        · exact (List.nodup_cons.mp hndq).1 hxr
        · exact (hnotu x (memnew x hxq).1) rfl
    exact List.nodup_append.mpr ⟨hnd_su, hnd_q2, hdisj3⟩
  · -- every scheduled SCC has its predecessors strictly earlier
    rw [Ps]
    simp only
    intro k v hk w hw
    by_cases hk1 : k < sched.length
    · rw [List.get?_append hk1] at hk
      have hmem := D k v hk w hw
      rw [List.take_append_of_le_length (le_of_lt hk1)]
      exact hmem
    · rw [List.get?_append_right (Nat.not_lt.mp hk1)] at hk
      cases hm : k - sched.length with
      | zero =>
        rw [hm] at hk
        have hv : v = u := by simpa using hk.symm
        subst hv
        have hkeq : k = sched.length := by omega
        subst hkeq
        rw [List.take_left]
        exact hpu w hw
      | succ m =>
        rw [hm] at hk
        simp at hk
  · -- bounds
    rw [Ps, Pq]
    simp only
    intro v hv
    rcases List.mem_append.mp hv with hv2 | hv2
    · rcases List.mem_append.mp hv2 with hvs | hvu
      · exact E v (List.mem_append_left _ hvs)
      · have : v = u := List.mem_singleton.mp hvu
        subst this
        exact E v (List.mem_append_right _ (List.mem_cons_self v rest))
    · rcases List.mem_append.mp hv2 with hvr | hvq
      · exact E v (List.mem_append_right _ (List.mem_cons_of_mem _ hvr))
      · exact (hced _ (memnew v hvq).1).2.1

/-- The Kahn loop preserves the invariant for any fuel. -/
lemma kahn_inv (ced : List (Nat × Nat)) (n : Nat)
    (hced : ∀ e ∈ ced, e.1 < n ∧ e.2 < n ∧ e.1 ≠ e.2) (hnd : ced.Nodup) :
    ∀ (fuel : Nat) (st : KState), KInv ced n st →
      KInv ced n (kahnLoop (succsOf ced) fuel st) := by
  intro fuel
  induction fuel with
  | zero => intro st h; exact h
  | succ f ih =>
    intro st h
    rcases st with ⟨inD, q, sched, pred⟩
    cases q with
    | nil => exact h
    | cons u rest =>
      exact ih _ (kinv_step ced n hced hnd inD u rest sched pred h)

/-- The invariant holds at the initial Kahn state. -/
lemma kinv_init (ced : List (Nat × Nat)) (n : Nat) (inD0 : Nat → Int)
    (hcnt : ∀ v, inD0 v = (((ced.filter (fun e => e.2 = v)).length : Nat) : Int)) :
    KInv ced n ⟨inD0, (List.range n).filter (fun i => inD0 i = 0), [], []⟩ := by
  refine ⟨?_, ?_, ?_, ?_, ?_⟩
  · intro v
    simp only
    have hid : (predsIn ced v).filter (fun u => u ∉ ([] : List Nat)) = predsIn ced v := by
      simp
    rw [hid, hcnt v]
    unfold predsIn
    rw [List.length_map]
  · intro v hv w hw
    simp only at hv
    rcases List.mem_filter.mp hv with ⟨_, h0⟩
    have h0b : inD0 v = 0 := by simpa using h0
    rw [hcnt v] at h0b
    have hz : (ced.filter (fun e => e.2 = v)).length = 0 := by exact_mod_cast h0b
    have hnil : ced.filter (fun e => e.2 = v) = [] := List.length_eq_zero.mp hz
    have hwp : w ∈ predsIn ced v := hw
    unfold predsIn at hwp
    rw [hnil] at hwp
    simp at hwp
  · simp only [List.nil_append]
    exact (List.nodup_range n).filter _
  · intro k v hk
    simp at hk
  · intro v hv
    simp only [List.nil_append] at hv
    exact List.mem_range.mp (List.mem_filter.mp hv).1

lemma nodup_full (n : Nat) (l : List Nat) (hnd : l.Nodup) (hb : ∀ x ∈ l, x < n)
    (hlen : l.length = n) : ∀ x, x < n → x ∈ l := by
  intro x hx
  have hsub : l.toFinset ⊆ Finset.range n := by
    intro y hy
    rw [Finset.mem_range]
    exact hb y (List.mem_toFinset.mp hy)
  have hcard : (Finset.range n).card ≤ l.toFinset.card := by
    rw [List.toFinset_card_of_nodup hnd, hlen, Finset.card_range]
  have heq : l.toFinset = Finset.range n := Finset.eq_of_subset_of_card_le hsub hcard
  rw [← List.mem_toFinset, heq, Finset.mem_range]
  exact hx

lemma get?_nodup_inj (l : List Nat) (hnd : l.Nodup) :
    ∀ i j a, l.get? i = some a → l.get? j = some a → i = j := by
  induction l with
  | nil => intro i j a hi; simp at hi
  | cons x t ih =>
    intro i j a hi hj
    cases i with
    | zero =>
      cases j with
      | zero => rfl
      | succ j2 =>
        simp only [List.get?_cons_zero] at hi
        injection hi with hi
        subst hi
        simp only [List.get?_cons_succ] at hj
        exact absurd (List.get?_mem hj) (List.nodup_cons.mp hnd).1
    | succ i2 =>
      cases j with
      | zero =>
        simp only [List.get?_cons_zero] at hj
        injection hj with hj
        subst hj
        simp only [List.get?_cons_succ] at hi
        exact absurd (List.get?_mem hi) (List.nodup_cons.mp hnd).1
      | succ j2 =>
        simp only [List.get?_cons_succ] at hi hj
        exact congrArg Nat.succ (ih (List.nodup_cons.mp hnd).2 i2 j2 a hi hj)

lemma mem_take_get? (l : List Nat) (k a : Nat) (h : a ∈ l.take k) :
    ∃ j, j < k ∧ l.get? j = some a := by
  obtain ⟨j, hj⟩ := List.mem_iff_get?.mp h
  have hjlen : j < (l.take k).length := by
    by_contra hge
    rw [List.get?_eq_none.mpr (Nat.not_lt.mp hge)] at hj
    exact Option.noConfusion hj
  have hjk : j < k := lt_of_lt_of_le hjlen (by rw [List.length_take]; omega)
  refine ⟨j, hjk, ?_⟩
  rw [← List.get?_take hjk]
  exact hj

/-- The Kahn outcome: if the final schedule has full length, it is a
duplicate-free enumeration of all SCC indices in which every condensed edge
goes strictly forward. -/
lemma kahn_final (ced : List (Nat × Nat)) (n : Nat)
    (hced : ∀ e ∈ ced, e.1 < n ∧ e.2 < n ∧ e.1 ≠ e.2) (hnd : ced.Nodup)
    (fuel : Nat) (inD0 : Nat → Int)
    (hcnt : ∀ v, inD0 v = (((ced.filter (fun e => e.2 = v)).length : Nat) : Int))
    (hlen : (kahnLoop (succsOf ced) fuel
        ⟨inD0, (List.range n).filter (fun i => inD0 i = 0), [], []⟩).sched.length = n) :
    (kahnLoop (succsOf ced) fuel
        ⟨inD0, (List.range n).filter (fun i => inD0 i = 0), [], []⟩).sched.Nodup ∧
    (∀ x, x < n → x ∈ (kahnLoop (succsOf ced) fuel
        ⟨inD0, (List.range n).filter (fun i => inD0 i = 0), [], []⟩).sched) ∧
    (∀ a b, (a, b) ∈ ced → ∀ ka kb,
      (kahnLoop (succsOf ced) fuel
        ⟨inD0, (List.range n).filter (fun i => inD0 i = 0), [], []⟩).sched.get? ka = some a →
      (kahnLoop (succsOf ced) fuel
        ⟨inD0, (List.range n).filter (fun i => inD0 i = 0), [], []⟩).sched.get? kb = some b →
      ka < kb) := by
  obtain ⟨A2, B2, C2, D2, E2⟩ :=
    kahn_inv ced n hced hnd fuel _ (kinv_init ced n inD0 hcnt)
  set final := kahnLoop (succsOf ced) fuel
      ⟨inD0, (List.range n).filter (fun i => inD0 i = 0), [], []⟩ with hfinal
  have hndsched : final.sched.Nodup := (List.nodup_append.mp C2).1
  have hbound : ∀ x ∈ final.sched, x < n :=
    fun x hx => E2 x (List.mem_append_left _ hx)
  refine ⟨hndsched, nodup_full n final.sched hndsched hbound hlen, ?_⟩
  intro a b hab ka kb hka hkb
  have hmem := D2 kb b hkb a ((mem_predsIn ced b a).mpr hab)
  obtain ⟨j, hjk, hj⟩ := mem_take_get? final.sched kb a hmem
  have : ka = j := get?_nodup_inj final.sched hndsched ka j a hka hj
  omega

lemma foldl_preserve {α : Type u} {β : Type v} (P : α → Prop) (f : α → β → α)
    (hf : ∀ a b, P a → P (f a b)) : ∀ (l : List β) (a : α), P a → P (l.foldl f a) := by
  intro l
  induction l with
  | nil => intro a h; exact h
  | cons x t ih => intro a h; exact ih (f a x) (hf a x h)

lemma setA_mem (k v : Nat) : ∀ (l : List (Nat × Nat)) (p : Nat × Nat),
    p ∈ setA k v l → p ∈ l ∨ p = (k, v) := by
  intro l
  induction l with
  | nil =>
    intro p hp
    rw [setA] at hp
    exact Or.inr (List.mem_singleton.mp hp)
  | cons kv rest ih =>
    intro p hp
    obtain ⟨k2, v2⟩ := kv
    rw [setA] at hp
    by_cases hk : k2 = k
    · rw [if_pos hk] at hp
      rcases List.mem_cons.mp hp with rfl | hrest
      · exact Or.inr rfl
      · exact Or.inl (List.mem_cons_of_mem _ hrest)
    · rw [if_neg hk] at hp
      rcases List.mem_cons.mp hp with rfl | hrest
      · exact Or.inl (List.mem_cons_self _ _)
      · rcases ih p hrest with h | h
        · exact Or.inl (List.mem_cons_of_mem _ h)
        · exact Or.inr h


lemma bfsStep_good (GT : Nat → List Nat) (F : Nat → Prop) (scc0 vis0 : List Nat)
    (u : Nat) (bst : BState) (h : BGood F scc0 vis0 bst) :
    BGood F scc0 vis0 (bfsStep GT u bst) := by
  unfold bfsStep
  apply foldl_preserve (BGood F scc0 vis0)
  · intro st v hst
    obtain ⟨g1, g2, g3, g4, g5, g6, g7⟩ := hst
    by_cases hv : v ∈ st.vis
    · simpa [hv] using ⟨g1, g2, g3, g4, g5, g6, g7⟩
    · simp only [if_neg hv]
      have hvscc : v ∉ st.scc := fun hh => hv (g3 v hh)
      refine ⟨?_, ?_, ?_, ?_, ?_, ?_, ?_⟩
      · intro x hx
        rcases List.mem_append.mp hx with hx | hx
        · exact List.mem_append_left _ (g1 x hx)
        · exact List.mem_append_right _ hx
      · rw [List.nodup_append]
        exact ⟨g2, List.nodup_singleton _,
          fun x hx hxv => hvscc ((List.mem_singleton.mp hxv) ▸ hx)⟩
      · intro x hx
        rcases List.mem_append.mp hx with hx | hx
        · exact List.mem_append_left _ (g3 x hx)
        · exact List.mem_append_right _ hx
      · intro x hx
        exact List.mem_append_left _ (g4 x hx)
      · intro x hx
        rcases List.mem_append.mp hx with hx | hx
        · exact g5 x hx
        · have hxv : x = v := List.mem_singleton.mp hx
          subst hxv
          exact fun hF => hv (g4 x hF)
      · intro x hx
        exact List.mem_append_left _ (g6 x hx)
      · intro x hx
        exact List.mem_append_left _ (g7 x hx)
  · exact h

/-- The BFS of pass 2: resulting `v_SCC` entries are either old ones or
assignments of `idx` to members of the produced SCC; the produced SCC is
duplicate-free, disjoint from the frozen vertices, contains the entry
members, and is contained in the final visited set. -/
lemma bfsRun_invariant (GT : Nat → List Nat) (idx : Nat) (P : Nat × Nat → Prop)
    (F : Nat → Prop) :
    ∀ (fuel : Nat) (bst : BState) (vscc : List (Nat × Nat)),
      (∀ p ∈ vscc, P p ∨ (p.2 = idx ∧ p.1 ∈ bst.scc)) →
      BGood F bst.scc bst.vis bst →
      ((∀ p ∈ (bfsRun GT idx fuel bst vscc).2.2,
          P p ∨ (p.2 = idx ∧ p.1 ∈ (bfsRun GT idx fuel bst vscc).2.1)) ∧
       (bfsRun GT idx fuel bst vscc).2.1.Nodup ∧
       (∀ x ∈ (bfsRun GT idx fuel bst vscc).2.1, ¬ F x) ∧
       (∀ x ∈ bst.scc, x ∈ (bfsRun GT idx fuel bst vscc).2.1) ∧
       (∀ x ∈ (bfsRun GT idx fuel bst vscc).2.1, x ∈ (bfsRun GT idx fuel bst vscc).1) ∧
       (∀ x ∈ bst.vis, x ∈ (bfsRun GT idx fuel bst vscc).1)) := by
  intro fuel
  induction fuel with
  | zero =>
    intro bst vscc hP hG
    obtain ⟨g1, g2, g3, g4, g5, g6, g7⟩ := hG
    exact ⟨hP, g2, g5, fun x hx => hx, g3, fun x hx => hx⟩
  | succ f ih =>
    intro bst vscc hP hG
    obtain ⟨g1, g2, g3, g4, g5, g6, g7⟩ := hG
    rcases hbst : bst with ⟨q, vis, scc⟩
    subst hbst
    cases q with
    | nil =>
      exact ⟨hP, g2, g5, fun x hx => hx, g3, fun x hx => hx⟩
    | cons u rest =>
      simp only [bfsRun]
      have hu_scc : u ∈ scc := g1 u (List.mem_cons_self u rest)
      set bst1 := bfsStep GT u ⟨rest, vis, scc⟩ with hbst1
      have hG1 : BGood F scc vis bst1 := by
        apply bfsStep_good
        exact ⟨fun x hx => g1 x (List.mem_cons_of_mem _ hx), g2, g3, g4, g5,
          fun x hx => hx, fun x hx => hx⟩
      obtain ⟨f1, f2, f3, f4, f5, f6, f7⟩ := hG1
      have hG1b : BGood F bst1.scc bst1.vis bst1 :=
        ⟨f1, f2, f3, f4, f5, fun x hx => hx, fun x hx => hx⟩
      have hP1 : ∀ p ∈ setA u idx vscc,
          P p ∨ (p.2 = idx ∧ p.1 ∈ bst1.scc) := by
        intro p hp
        rcases setA_mem u idx vscc p hp with h | h
        · rcases hP p h with h2 | ⟨h2, h3⟩
          · exact Or.inl h2
          · exact Or.inr ⟨h2, f6 p.1 h3⟩
        · subst h
          exact Or.inr ⟨rfl, f6 u hu_scc⟩
      obtain ⟨r1, r2, r3, r4, r5, r6⟩ := ih bst1 (setA u idx vscc) hP1 hG1b
      exact ⟨r1, r2, r3, fun x hx => r4 x (f6 x hx), r5, fun x hx => r6 x (f7 x hx)⟩

lemma alookup_mem (k : Nat) : ∀ (l : List (Nat × Nat)) (v : Nat),
    alookup k l = some v → (k, v) ∈ l := by
  intro l
  induction l with
  | nil => intro v h; rw [alookup] at h; exact Option.noConfusion h
  | cons kv rest ih =>
    intro v h
    obtain ⟨k2, v2⟩ := kv
    rw [alookup] at h
    by_cases hk : k2 = k
    · rw [if_pos hk] at h
      injection h with h
      subst h; subst hk
      exact List.mem_cons_self _ _
    · rw [if_neg hk] at h
      exact List.mem_cons_of_mem _ (ih v h)

lemma getD_append_len (l : List (List Nat)) (x : List Nat) :
    (l ++ [x]).getD l.length [] = x := by
  induction l with
  | nil => rfl
  | cons a t ih => simpa using ih

lemma getD_append_lt (l l2 : List (List Nat)) (i : Nat) (hi : i < l.length) :
    (l ++ l2).getD i [] = l.getD i [] := by
  induction l generalizing i with
  | nil => simp at hi
  | cons a t ih =>
    cases i with
    | zero => rfl
    | succ i2 =>
      simp only [List.cons_append, List.getD_cons_succ]
      exact ih i2 (by simpa using hi)


lemma pass2_invariant (GT : Nat → List Nat) (fuel : Nat) (rpo : List Nat) :
    OInv (pass2 GT fuel rpo) := by
  unfold pass2
  apply foldl_preserve OInv
  · intro st u hst
    obtain ⟨o1, o2, o3, o4⟩ := hst
    by_cases hu : u ∈ st.vis
    · simpa [hu] using ⟨o1, o2, o3, o4⟩
    · simp only [if_neg hu]
      have hpre : ∀ p ∈ st.vscc,
          (fun p : Nat × Nat => p.2 < st.sccs.length ∧ p.1 ∈ st.sccs.getD p.2 []) p ∨
          (p.2 = st.sccs.length ∧ p.1 ∈ (⟨[u], st.vis ++ [u], [u]⟩ : BState).scc) :=
        fun p hp => Or.inl (o1 p hp)
      have hgood : BGood (fun x => ∃ l ∈ st.sccs, x ∈ l)
          (⟨[u], st.vis ++ [u], [u]⟩ : BState).scc
          (⟨[u], st.vis ++ [u], [u]⟩ : BState).vis ⟨[u], st.vis ++ [u], [u]⟩ := by
        refine ⟨fun x hx => hx, List.nodup_singleton u, ?_, ?_, ?_, fun x hx => hx,
          fun x hx => hx⟩
        · intro x hx
          have hxu : x = u := List.mem_singleton.mp hx
          rw [hxu]
          exact List.mem_append_right _ (List.mem_singleton_self u)
        · intro x hF
          obtain ⟨l, hl, hxl⟩ := hF
          exact List.mem_append_left _ (o4 l hl x hxl)
        · intro x hx hF
          have hxu : x = u := List.mem_singleton.mp hx
          obtain ⟨l, hl, hxl⟩ := hF
          rw [hxu] at hxl
          exact hu (o4 l hl u hxl)
      obtain ⟨r1, r2, r3, r4, r5, r6⟩ :=
        bfsRun_invariant GT st.sccs.length
          (fun p => p.2 < st.sccs.length ∧ p.1 ∈ st.sccs.getD p.2 [])
          (fun x => ∃ l ∈ st.sccs, x ∈ l)
          fuel ⟨[u], st.vis ++ [u], [u]⟩ st.vscc hpre hgood
      refine ⟨?_, ?_, ?_, ?_⟩
      · intro p hp
        rcases r1 p hp with ⟨h1, h2⟩ | ⟨h1, h2⟩
        · refine ⟨by rw [List.length_append]; omega, ?_⟩
          rw [getD_append_lt _ _ _ h1]
          exact h2
        · refine ⟨by rw [List.length_append, h1]; simp, ?_⟩
          rw [h1, getD_append_len]
          exact h2
      · intro l hl
        rcases List.mem_append.mp hl with hl | hl
        · exact o2 l hl
        · have : l = _ := List.mem_singleton.mp hl
          rw [this]
          exact r2
      · rw [List.pairwise_append]
        refine ⟨o3, List.pairwise_singleton _ _, ?_⟩
        intro a ha b hb x hx
        have hb2 : b = _ := List.mem_singleton.mp hb
        rw [hb2]
        exact fun hxb => r3 x hxb ⟨a, ha, hx⟩
      · intro l hl x hx
        rcases List.mem_append.mp hl with hl | hl
        · exact r6 x (List.mem_append_left _ (o4 l hl x hx))
        · have hl2 : l = _ := List.mem_singleton.mp hl
          rw [hl2] at hx
          exact r5 x hx
  · exact ⟨by simp, by simp, by simp, by simp⟩

lemma passMid_inversion (inp : DagInput) (ord : List Nat) (fuel : Nat) (m : Mid)
    (h : passMid inp ord fuel = some m) :
    ∃ mcm cd, buildMcm inp = some mcm ∧
      condense (midP2 inp ord fuel mcm).vscc (midGs inp mcm).E [] (fun _ => 0) = some cd ∧
      m = ⟨buildV inp, midGs inp mcm, (midP2 inp ord fuel mcm).sccs,
           (midP2 inp ord fuel mcm).vscc, cd.1, cd.2⟩ := by
  unfold passMid at h
  simp only [Option.bind_eq_bind] at h
  obtain ⟨mcm, hmcm, h⟩ := Option.bind_eq_some.mp h
  obtain ⟨cd, hcd, h⟩ := Option.bind_eq_some.mp h
  injection h with h
  exact ⟨mcm, cd, hmcm, hcd, h.symm⟩

lemma runPass_inversion (inp : DagInput) (ord : List Nat) (fuel : Nat) (out : SchedOut)
    (h : runPass inp ord fuel = some out) :
    ∃ m upd, passMid inp ord fuel = some m ∧
      (midKahn m fuel).sched.length = m.sccs.length ∧
      omap (emitScc inp m.gs m.sccs (midKahn m fuel).pred fuel) (midKahn m fuel).sched
        = some upd ∧
      out = ⟨m.V, m.gs.E, m.sccs, m.vscc, (midKahn m fuel).sched, assemble inp upd⟩ := by
  unfold runPass at h
  simp only [Option.bind_eq_bind] at h
  obtain ⟨m, hm, h⟩ := Option.bind_eq_some.mp h
  split at h
  case isTrue hlen =>
    obtain ⟨upd, hupd, h⟩ := Option.bind_eq_some.mp h
    injection h with h
    exact ⟨m, upd, hm, hlen, hupd, h.symm⟩
  case isFalse hlen =>
    exact Option.noConfusion h

/-- C1: topological correctness of the emitted SCC schedule — for every
input, shuffle order and fuel accepted by the pass, every edge `(u,v)` of
the constructed edge set `E` whose endpoints lie in distinct SCCs has the
SCC of `u` at a strictly earlier position than the SCC of `v` in
`scc_schedule` (both SCCs do occur, and every pair of occurrences is
ordered). -/
theorem claim_C1_topoOrder (inp : DagInput) (ord : List Nat) (fuel : Nat) (out : SchedOut)
    (hacc : runPass inp ord fuel = some out) :
    ∀ u v su sv, (u, v) ∈ out.E →
      alookup u out.vscc = some su → alookup v out.vscc = some sv → su ≠ sv →
      (∃ ku, out.sccSched.get? ku = some su) ∧
      (∃ kv, out.sccSched.get? kv = some sv) ∧
      (∀ ku kv, out.sccSched.get? ku = some su → out.sccSched.get? kv = some sv →
        ku < kv) := by
  obtain ⟨m, upd, hm, hlen, homap, hout⟩ := runPass_inversion inp ord fuel out hacc
  obtain ⟨mcm, cd, hmcm, hcd, hmval⟩ := passMid_inversion inp ord fuel m hm
  subst hout
  subst hmval
  obtain ⟨hp2a, _, _, _⟩ :=
    pass2_invariant (midGs inp mcm).GT fuel (pass1 (midGs inp mcm).G fuel ord).reverse
  have hcd2 : condense (midP2 inp ord fuel mcm).vscc (midGs inp mcm).E []
      (fun _ => 0) = some (cd.1, cd.2) := hcd
  obtain ⟨_, Horig, Hnd, Hcomp, _, Hcnt⟩ :=
    condense_invariant (midP2 inp ord fuel mcm).vscc (midGs inp mcm).E []
      (fun _ => 0) cd.1 cd.2 hcd2
  set n := (midP2 inp ord fuel mcm).sccs.length with hn
  have hced : ∀ e ∈ cd.1, e.1 < n ∧ e.2 < n ∧ e.1 ≠ e.2 := by
    intro e he
    rcases Horig e he with hnil | ⟨hne, uv, _, hl1, hl2⟩
    · exact absurd hnil (List.not_mem_nil e)
    · have h1 := (hp2a _ (alookup_mem uv.1 _ e.1 hl1)).1
      have h2 := (hp2a _ (alookup_mem uv.2 _ e.2 hl2)).1
      exact ⟨h1, h2, hne⟩
  have hnd : cd.1.Nodup := Hnd List.nodup_nil
  have hcnt : ∀ w, cd.2 w = (((cd.1.filter (fun e => e.2 = w)).length : Nat) : Int) :=
    Hcnt (fun w => by simp)
  obtain ⟨hnds, hcompl, horder⟩ := kahn_final cd.1 n hced hnd fuel cd.2 hcnt hlen
  intro u v su sv hE hsu hsv hne
  have hmem : (su, sv) ∈ cd.1 := Hcomp (u, v) hE su sv hsu hsv hne
  have hsun : su < n := (hced _ hmem).1
  have hsvn : sv < n := (hced _ hmem).2.1
  refine ⟨List.mem_iff_get?.mp (hcompl su hsun), List.mem_iff_get?.mp (hcompl sv hsvn),
    fun ku kv h1 h2 => horder su sv hmem ku kv h1 h2⟩

/-- Witness for C1: the linear chain S1 — the SCC of block 1 (index 0) sits
at position 0 and the SCC of block 2 (index 1) at position 1 of the SCC
schedule. -/
theorem claim_C1_witness :
    chainOut.sccSched.get? 0 = some 0 ∧ chainOut.sccSched.get? 1 = some 1 ∧ (0 : Nat) < 1 :=
  ⟨by decide, by decide,
    (claim_C1_topoOrder chainInp [1, 2, 3] 50 chainOut (by decide) 1 2 0 1 (by decide)
      (by decide) (by decide) (by decide)).2.2 0 1 (by decide) (by decide)⟩

/-- C5, evaluation at the failing input: one non-blocking interface
(rdy `20`, method `21`) and one update block `10`, shuffle order
`[10, 21, 20]`.  The initial Kahn frontier is `[0, 2]` — SCC 0 = `[20]`
(the ready guard) and SCC 2 = `[10]` (the update block) — yet the emitted
SCC schedule starts with SCC 0: the pop takes the head of `Q` (the
membership test compares an SCC index against vertex-keyed dicts and is
vacuously true), so the ready SCC is scheduled while the update-block SCC
sits in the frontier. -/
theorem claim_C5_headPop :
    passFrontier nbInp [10, 21, 20] 50 = some [0, 2] ∧
    runPass nbInp [10, 21, 20] 50 = some nbOut ∧
    nbOut.sccs = [[20], [21], [10]] ∧
    nbOut.sccSched = [0, 2, 1] ∧
    nbInp.nbIfcs = [(20, 21)] ∧
    nbInp.upblks = [10] := by
  refine ⟨by decide, by decide, by decide, by decide, by decide, by decide⟩

lemma insertNew_sub [DecidableEq α] (xs : List α) (x y : α) (h : y ∈ xs) :
    y ∈ insertNew xs x := by
  unfold insertNew
  split
  · exact h
  · exact List.mem_append_left _ h

lemma insertNew_self [DecidableEq α] (xs : List α) (x : α) : x ∈ insertNew xs x := by
  unfold insertNew
  split
  · assumption
  · exact List.mem_append_right _ (List.mem_singleton_self x)

lemma fold_insert_image [DecidableEq α] (f : β → α) :
    ∀ (l : List β) (e0 : List α) (b : β), b ∈ l →
      f b ∈ l.foldl (fun e x => insertNew e (f x)) e0 := by
  intro l
  induction l with
  | nil => intro e0 b h; cases h
  | cons x t ih =>
    intro e0 b hb
    rcases List.mem_cons.mp hb with rfl | ht
    · simp only [List.foldl_cons]
      apply foldl_preserve (fun e : List α => f b ∈ e)
      · intro e y he
        exact insertNew_sub _ _ _ he
      · exact insertNew_self e0 (f b)
    · simp only [List.foldl_cons]
      exact ih _ b ht

/-- The implicit `(rdy, method)` edge of every non-blocking interface is in `E`. -/
lemma nb_edge_mem (inp : DagInput) (V : List Nat) (mcm mgm : List (Nat × Nat))
    (r mth : Nat) (hnb : (r, mth) ∈ inp.nbIfcs) :
    (r, mth) ∈ (buildGraphs inp V mcm mgm).E := by
  unfold buildGraphs
  apply foldl_preserve (fun gs : Graphs => (r, mth) ∈ gs.E)
  · intro gs xy hgs
    dsimp only
    split
    · exact insertNew_sub _ _ _ hgs
    · exact hgs
  · apply foldl_preserve (fun gs : Graphs => (r, mth) ∈ gs.E)
    · intro gs uv hgs
      dsimp only
      split
      · exact insertNew_sub _ _ _ hgs
      · exact hgs
    · exact fold_insert_image (fun rm : Nat × Nat => (rm.1, rm.2)) inp.nbIfcs [] (r, mth) hnb

lemma omap_length (f : α → Option β) :
    ∀ (l : List α) (r : List β), omap f l = some r → r.length = l.length := by
  intro l
  induction l with
  | nil =>
    intro r h
    rw [omap] at h
    injection h with h
    rw [← h]
    rfl
  | cons x t ih =>
    intro r h
    rw [omap] at h
    simp only [Option.bind_eq_bind] at h
    obtain ⟨y, hy, h⟩ := Option.bind_eq_some.mp h
    obtain ⟨ys, hys, h⟩ := Option.bind_eq_some.mp h
    injection h with h
    rw [← h]
    simp [ih ys hys]

lemma omap_get? (f : α → Option β) :
    ∀ (l : List α) (r : List β), omap f l = some r →
      ∀ k y, r.get? k = some y → ∃ x, l.get? k = some x ∧ f x = some y := by
  intro l
  induction l with
  | nil =>
    intro r h k y hk
    rw [omap] at h
    injection h with h
    rw [← h] at hk
    simp at hk
  | cons x t ih =>
    intro r h k y hk
    rw [omap] at h
    simp only [Option.bind_eq_bind] at h
    obtain ⟨y0, hy0, h⟩ := Option.bind_eq_some.mp h
    obtain ⟨ys, hys, h⟩ := Option.bind_eq_some.mp h
    injection h with h
    rw [← h] at hk
    cases k with
    | zero =>
      simp only [List.get?_cons_zero] at hk
      injection hk with hk
      exact ⟨x, rfl, hk ▸ hy0⟩
    | succ k2 =>
      simp only [List.get?_cons_succ] at hk
      obtain ⟨x2, hx2, hfx2⟩ := ih ys hys k2 y hk
      exact ⟨x2, hx2, hfx2⟩

lemma omap_fwd_get? (f : α → Option β) :
    ∀ (l : List α) (r : List β), omap f l = some r →
      ∀ k x, l.get? k = some x → ∃ y, f x = some y ∧ r.get? k = some y := by
  intro l
  induction l with
  | nil =>
    intro r h k x hk
    simp at hk
  | cons a t ih =>
    intro r h k x hk
    rw [omap] at h
    simp only [Option.bind_eq_bind] at h
    obtain ⟨y0, hy0, h⟩ := Option.bind_eq_some.mp h
    obtain ⟨ys, hys, h⟩ := Option.bind_eq_some.mp h
    injection h with h
    cases k with
    | zero =>
      simp only [List.get?_cons_zero] at hk
      injection hk with hk
      exact ⟨y0, hk ▸ hy0, by rw [← h]; rfl⟩
    | succ k2 =>
      simp only [List.get?_cons_succ] at hk
      obtain ⟨y2, hfy2, hy2⟩ := ih ys hys k2 x hk
      exact ⟨y2, hfy2, by rw [← h]; simpa using hy2⟩

/-- A successfully emitted SCC is trivial: the emission of a non-trivial SCC
always fails (`NameError` for a non-empty trigger set, compile failure for an
empty one). -/
lemma emitScc_trivial (inp : DagInput) (gs : Graphs) (sccs : List (List Nat))
    (pred : List (Nat × Nat)) (fuel i : Nat) (it : SItem)
    (h : emitScc inp gs sccs pred fuel i = some it) :
    ∃ scc, sccs.get? i = some scc ∧ scc.length = 1 ∧ it = SItem.vtx (scc.headD 0) := by
  unfold emitScc at h
  simp only [Option.bind_eq_bind] at h
  obtain ⟨scc, hscc, h⟩ := Option.bind_eq_some.mp h
  by_cases h1 : scc.length = 1
  · rw [if_pos h1] at h
    injection h with h
    exact ⟨scc, hscc, h1, h.symm⟩
  · rw [if_neg h1] at h
    exfalso
    obtain ⟨vars, hvars, h⟩ := Option.bind_eq_some.mp h
    obtain ⟨copies, hcopies, h⟩ := Option.bind_eq_some.mp h
    cases vars with
    | nil =>
      have hfalse : pyCondCompiles (genCheckSrc inp.sigName []) = false := rfl
      rw [hfalse] at h
      simp at h
    | cons v vs =>
      have hnone : genCopySrcs inp.kindOf inp.sigName (v :: vs) = none := rfl
      rw [hnone] at hcopies
      exact Option.noConfusion hcopies

lemma getD_of_get? : ∀ (l : List (List Nat)) (i : Nat) (a : List Nat),
    l.get? i = some a → l.getD i [] = a := by
  intro l
  induction l with
  | nil => intro i a h; simp at h
  | cons x t ih =>
    intro i a h
    cases i with
    | zero =>
      simp at h
      simp [h]
    | succ i2 =>
      simp only [List.get?_cons_succ] at h
      simpa using ih i2 a h

lemma scc_eq_singleton (scc : List Nat) (x : Nat) (h1 : scc.length = 1) (hx : x ∈ scc) :
    scc = [x] := by
  obtain ⟨a, ha⟩ := List.length_eq_one.mp h1
  rw [ha] at hx ⊢
  rw [List.mem_singleton.mp hx]

lemma pairwise_disjoint_getD (sccs : List (List Nat))
    (hdis : List.Pairwise (fun a b => ∀ x ∈ a, x ∉ b) sccs)
    (i j : Nat) (hi : i < sccs.length) (hj : j < sccs.length) (hij : i ≠ j) (x : Nat)
    (hxi : x ∈ sccs.getD i []) (hxj : x ∈ sccs.getD j []) : False := by
  rw [List.getD_eq_getElem?_getD, List.getElem?_eq_getElem hi] at hxi
  rw [List.getD_eq_getElem?_getD, List.getElem?_eq_getElem hj] at hxj
  simp only [Option.getD_some] at hxi hxj
  rcases Nat.lt_or_ge i j with hlt | hge
  · exact (List.pairwise_iff_get.mp hdis ⟨i, hi⟩ ⟨j, hj⟩ hlt x hxi) hxj
  · have hlt2 : j < i := by omega
    exact (List.pairwise_iff_get.mp hdis ⟨j, hj⟩ ⟨i, hi⟩ hlt2 x hxj) hxi

lemma asmTail_no_vtx (inp : DagInput) : ∀ it ∈ asmTail inp, ∀ x, it ≠ SItem.vtx x := by
  intro it hit x
  unfold asmTail at hit
  rcases List.mem_append.mp hit with h | h
  · rcases List.mem_append.mp h with h | h
    · rcases List.mem_append.mp h with h | h
      · rcases List.mem_append.mp h with h | h
        · split at h
          · rw [List.mem_singleton.mp h]
            intro hc
            exact SItem.noConfusion hc
          · cases h
        · obtain ⟨k, _, hk⟩ := List.mem_map.mp h
          rw [← hk]
          intro hc
          exact SItem.noConfusion hc
      · split at h
        · rw [List.mem_singleton.mp h]
          intro hc
          exact SItem.noConfusion hc
        · cases h
    · split at h
      · rw [List.mem_singleton.mp h]
        intro hc
        exact SItem.noConfusion hc
      · cases h
  · obtain ⟨k, _, hk⟩ := List.mem_map.mp h
    rw [← hk]
    intro hc
    exact SItem.noConfusion hc

lemma assemble_eq (inp : DagInput) (upd : List SItem) :
    assemble inp upd = SItem.clearTrace :: (upd ++ asmTail inp) := by
  unfold assemble asmTail
  simp [List.append_assoc]

/-- C6: for every top-level non-blocking callee interface `(rdy, method)`,
the implicit edge `(rdy, method)` is inserted into `E`, and in every
accepted run the ready guard appears in the final assembled schedule
strictly before the method (both occur, and every pair of occurrences is
ordered). -/
theorem claim_C6_guardBeforeMethod (inp : DagInput) (ord : List Nat) (fuel : Nat)
    (out : SchedOut) (r mth : Nat)
    (hacc : runPass inp ord fuel = some out)
    (hnb : (r, mth) ∈ inp.nbIfcs) (hrm : r ≠ mth) :
    (r, mth) ∈ out.E ∧
    (∃ ir, out.schedule.get? ir = some (.vtx r)) ∧
    (∃ im, out.schedule.get? im = some (.vtx mth)) ∧
    (∀ ir im, out.schedule.get? ir = some (.vtx r) →
      out.schedule.get? im = some (.vtx mth) → ir < im) := by
  obtain ⟨m, upd, hm, hlen, homap, hout⟩ := runPass_inversion inp ord fuel out hacc
  obtain ⟨mcm, cd, hmcm, hcd, hmval⟩ := passMid_inversion inp ord fuel m hm
  subst hout
  subst hmval
  obtain ⟨hp2a, hp2nd, hp2dis, _⟩ :=
    pass2_invariant (midGs inp mcm).GT fuel (pass1 (midGs inp mcm).G fuel ord).reverse
  have hE : (r, mth) ∈ (midGs inp mcm).E :=
    nb_edge_mem inp (buildV inp) mcm (buildMgm inp) r mth hnb
  have hcd2 : condense (midP2 inp ord fuel mcm).vscc (midGs inp mcm).E []
      (fun _ => 0) = some (cd.1, cd.2) := hcd
  obtain ⟨_, Horig, Hnd, Hcomp, Hdom, Hcnt⟩ :=
    condense_invariant (midP2 inp ord fuel mcm).vscc (midGs inp mcm).E []
      (fun _ => 0) cd.1 cd.2 hcd2
  set n := (midP2 inp ord fuel mcm).sccs.length with hn
  obtain ⟨sr, hsr⟩ := Option.isSome_iff_exists.mp (Hdom (r, mth) hE).1
  obtain ⟨sm, hsm⟩ := Option.isSome_iff_exists.mp (Hdom (r, mth) hE).2
  have hsrP := hp2a _ (alookup_mem r _ sr hsr)
  have hsmP := hp2a _ (alookup_mem mth _ sm hsm)
  have hced : ∀ e ∈ cd.1, e.1 < n ∧ e.2 < n ∧ e.1 ≠ e.2 := by
    intro e he
    rcases Horig e he with hnil | ⟨hne, uv, _, hl1, hl2⟩
    · exact absurd hnil (List.not_mem_nil e)
    · exact ⟨(hp2a _ (alookup_mem uv.1 _ e.1 hl1)).1,
        (hp2a _ (alookup_mem uv.2 _ e.2 hl2)).1, hne⟩
  have hndc : cd.1.Nodup := Hnd List.nodup_nil
  have hcnt : ∀ w, cd.2 w = (((cd.1.filter (fun e => e.2 = w)).length : Nat) : Int) :=
    Hcnt (fun w => by simp)
  obtain ⟨hnds, hcompl, horder⟩ := kahn_final cd.1 n hced hndc fuel cd.2 hcnt hlen
  -- every scheduled SCC emits its single vertex
  have hemit : ∀ k i, (midKahn ⟨buildV inp, midGs inp mcm,
        (midP2 inp ord fuel mcm).sccs, (midP2 inp ord fuel mcm).vscc, cd.1, cd.2⟩
        fuel).sched.get? k = some i →
      ∃ scc, (midP2 inp ord fuel mcm).sccs.get? i = some scc ∧ scc.length = 1 ∧
        upd.get? k = some (.vtx (scc.headD 0)) := by
    intro k i hk
    obtain ⟨y, hy, hyk⟩ := omap_fwd_get? _ _ _ homap k i hk
    obtain ⟨scc, hscc, hlen1, hity⟩ := emitScc_trivial _ _ _ _ _ _ _ hy
    exact ⟨scc, hscc, hlen1, by rw [hyk, hity]⟩
  -- distinct SCCs
  have hneq : sr ≠ sm := by
    intro he
    obtain ⟨k, hk⟩ := List.mem_iff_get?.mp (hcompl sm hsmP.1)
    obtain ⟨scc, hscc, hlen1, _⟩ := hemit k sm hk
    have hgd : (midP2 inp ord fuel mcm).sccs.getD sm [] = scc :=
      getD_of_get? _ sm scc hscc
    have hrmem : r ∈ scc := by
      rw [← hgd, ← he]
      exact hsrP.2
    have hmmem : mth ∈ scc := by
      rw [← hgd]
      exact hsmP.2
    have := scc_eq_singleton scc r hlen1 hrmem
    rw [this] at hmmem
    exact hrm (List.mem_singleton.mp hmmem).symm
  have hmemced : (sr, sm) ∈ cd.1 := Hcomp (r, mth) hE sr sm hsr hsm hneq
  -- occurrences of a vertex item in upd determine the SCC position
  have hoccur : ∀ k x sx, upd.get? k = some (.vtx x) →
      sx < n → x ∈ (midP2 inp ord fuel mcm).sccs.getD sx [] →
      (midKahn ⟨buildV inp, midGs inp mcm, (midP2 inp ord fuel mcm).sccs,
        (midP2 inp ord fuel mcm).vscc, cd.1, cd.2⟩ fuel).sched.get? k = some sx := by
    intro k x sx hk hsxn hxmem
    obtain ⟨i, hik, hfi⟩ := omap_get? _ _ _ homap k _ hk
    obtain ⟨scc, hscc, hlen1, hit⟩ := emitScc_trivial _ _ _ _ _ _ _ hfi
    have hin : i < n := by
      have := List.get?_eq_some.mp hscc
      exact this.choose
    have hxh : SItem.vtx x = SItem.vtx (scc.headD 0) := hit
    injection hxh with hxh
    have hxscc : x ∈ scc := by
      obtain ⟨a, ha⟩ := List.length_eq_one.mp hlen1
      rw [ha]
      rw [ha] at hxh
      simp only [List.headD_cons] at hxh
      simp [hxh]
    have hxi : x ∈ (midP2 inp ord fuel mcm).sccs.getD i [] := by
      rw [getD_of_get? _ i scc hscc]
      exact hxscc
    by_cases hisx : i = sx
    · rw [hisx] at hik
      exact hik
    · exact absurd (pairwise_disjoint_getD _ hp2dis i sx hin hsxn hisx x hxi hxmem) id
  -- occurrences in the assembled schedule live in the update sweep
  have hlenupd : upd.length = (midKahn ⟨buildV inp, midGs inp mcm,
      (midP2 inp ord fuel mcm).sccs, (midP2 inp ord fuel mcm).vscc, cd.1, cd.2⟩
      fuel).sched.length := omap_length _ _ _ homap
  have hsched_occ : ∀ j x, (assemble inp upd).get? j = some (.vtx x) →
      ∃ k, j = k + 1 ∧ upd.get? k = some (.vtx x) := by
    intro j x hj
    rw [assemble_eq] at hj
    cases j with
    | zero =>
      simp only [List.get?_cons_zero] at hj
      injection hj with hj
      exact absurd hj (by intro hc; exact SItem.noConfusion hc)
    | succ k =>
      simp only [List.get?_cons_succ] at hj
      by_cases hk : k < upd.length
      · rw [List.get?_append hk] at hj
        exact ⟨k, rfl, hj⟩
      · rw [List.get?_append_right (Nat.not_lt.mp hk)] at hj
        exact absurd rfl (asmTail_no_vtx inp _ (List.get?_mem hj) x)
  have hvalid : ∀ (ku s : Nat),
      (midKahn ⟨buildV inp, midGs inp mcm, (midP2 inp ord fuel mcm).sccs,
        (midP2 inp ord fuel mcm).vscc, cd.1, cd.2⟩ fuel).sched.get? ku = some s →
      ku < upd.length := by
    intro ku s hku
    have hlt : ku < (midKahn ⟨buildV inp, midGs inp mcm, (midP2 inp ord fuel mcm).sccs,
        (midP2 inp ord fuel mcm).vscc, cd.1, cd.2⟩ fuel).sched.length := by
      by_contra hge
      have hnone : (midKahn ⟨buildV inp, midGs inp mcm, (midP2 inp ord fuel mcm).sccs,
          (midP2 inp ord fuel mcm).vscc, cd.1, cd.2⟩ fuel).sched.get? ku = none :=
        List.get?_eq_none.mpr (Nat.not_lt.mp hge)
      rw [hnone] at hku
      exact Option.noConfusion hku
    omega
  refine ⟨hE, ?_, ?_, ?_⟩
  · -- existence of the rdy occurrence
    obtain ⟨ku, hku⟩ := List.mem_iff_get?.mp (hcompl sr hsrP.1)
    obtain ⟨scc, hscc, hlen1, hupd⟩ := hemit ku sr hku
    have hgd : (midP2 inp ord fuel mcm).sccs.getD sr [] = scc := getD_of_get? _ sr scc hscc
    have hsingle : scc = [r] := scc_eq_singleton scc r hlen1 (by rw [← hgd]; exact hsrP.2)
    refine ⟨ku + 1, ?_⟩
    rw [assemble_eq]
    simp only [List.get?_cons_succ]
    rw [List.get?_append (hvalid ku sr hku), hupd, hsingle]
    rfl
  · obtain ⟨ku, hku⟩ := List.mem_iff_get?.mp (hcompl sm hsmP.1)
    obtain ⟨scc, hscc, hlen1, hupd⟩ := hemit ku sm hku
    have hgd : (midP2 inp ord fuel mcm).sccs.getD sm [] = scc := getD_of_get? _ sm scc hscc
    have hsingle : scc = [mth] := scc_eq_singleton scc mth hlen1 (by rw [← hgd]; exact hsmP.2)
    refine ⟨ku + 1, ?_⟩
    rw [assemble_eq]
    simp only [List.get?_cons_succ]
    rw [List.get?_append (hvalid ku sm hku), hupd, hsingle]
    rfl
  · -- every rdy occurrence precedes every method occurrence
    intro ir im hir him
    obtain ⟨kr, hkr1, hkr2⟩ := hsched_occ ir r hir
    obtain ⟨km, hkm1, hkm2⟩ := hsched_occ im mth him
    have h1 := hoccur kr r sr hkr2 hsrP.1 hsrP.2
    have h2 := hoccur km mth sm hkm2 hsmP.1 hsmP.2
    have := horder sr sm hmemced kr km h1 h2
    omega

/-- Witness for C6: the non-blocking interface (rdy `20`, method `21`) of
`nbInp` — the implicit edge is in `E` and the ready guard (schedule position
1) precedes the method (schedule position 3). -/
theorem claim_C6_witness :
    (20, 21) ∈ nbOut.E ∧ nbOut.schedule.get? 1 = some (.vtx 20) ∧
    nbOut.schedule.get? 3 = some (.vtx 21) ∧ (1 : Nat) < 3 := by
  have h := claim_C6_guardBeforeMethod nbInp [10, 21, 20] 50 nbOut 20 21 (by decide)
    (by decide) (by decide)
  exact ⟨h.1, by decide, by decide, h.2.2.2 1 3 (by decide) (by decide)⟩

end OpenLoopCL
